import Mathlib

set_option autoImplicit false
set_option maxHeartbeats 1000000

/-
Shallow embedding of the client-side message reconciliation core of the
agent chat UI (the `Thread` component in src/components/thread/index.tsx)
and of the thread-management provider (`ThreadProvider`).

Conventions of the embedding:
 * A JS `Map` is modelled as an insertion-ordered association list
   (`List (κ × ν)`); `mapSet` overwrites the value in place when the key is
   already present (keeping its position) and appends otherwise, exactly as
   `Map.prototype.set` does.
 * Message ids are `Option String`; JS truthiness of an id (`msg.id && ...`)
   is `idTruthy` (absent or empty-string ids are falsy).
 * `===` comparisons between possibly-undefined ids are `==` on
   `Option String` (`undefined === undefined` is `true`, as is
   `none == none`).
-/

inductive MsgType
  | human
  | ai
  | tool
  deriving DecidableEq, Repr

/-- A conversation message as the reconciler sees it: an optional id, a role
and an opaque content payload (the reconciler never inspects content). -/
structure Message where
  id : Option String
  type : MsgType
  content : String
  deriving DecidableEq, Repr

/-- JS truthiness of a message id: `undefined` and `""` are falsy. -/
def idTruthy : Option String → Bool
  | some s => !(s == "")
  | none => false

/-- The string behind a truthy id (only used under an `idTruthy` guard). -/
def idKey : Option String → String
  | some s => s
  | none => ""

/-- `Map.prototype.set`: overwrite in place when the key exists (keeping the
entry's position), append otherwise. -/
def mapSet {α β : Type} [BEq α] (m : List (α × β)) (k : α) (v : β) :
    List (α × β) :=
  if m.any (fun p => p.1 == k) then
    m.map (fun p => if p.1 == k then (k, v) else p)
  else m ++ [(k, v)]

/-- `Map.prototype.get`. -/
def mapGet {α β : Type} [BEq α] (m : List (α × β)) (k : α) : Option β :=
  (m.find? (fun p => p.1 == k)).map (fun p => p.2)

def mapKeys {α β : Type} (m : List (α × β)) : List α := m.map (fun p => p.1)

def mapValues {α β : Type} (m : List (α × β)) : List β := m.map (fun p => p.2)

/-- The streaming accumulator (`streamedMessages` in the source): a JS `Map`
from message id to message. -/
abbrev Accum := List (String × Message)

/-- The intermediate-groups maps (`persistedIntermediateGroups` and the
reconciler's `intermediateGroupsMap`): JS `Map`s keyed by the (possibly
absent) id of a human message. -/
abbrev GroupsMap := List (Option String × List Message)

/-- `findLastIndex((m) => m.type === "human")` together with the parts of the
list around that index: `some (before, h, after)` where `h` is the last human
message, `before` everything before it and `after` everything after it
(`after` contains no human message); `none` when the list has no human. -/
def splitAtLastHuman : List Message →
    Option (List Message × Message × List Message)
  | [] => none
  | m :: rest =>
    match splitAtLastHuman rest with
    | some (b, h, a) => some (m :: b, h, a)
    | none => if m.type = MsgType.human then some ([], m, rest) else none

/-- `stream.messages[lastHumanIndex]?.id` (with `undefined` for a missing
human). -/
def lastHumanId (msgs : List Message) : Option String :=
  match splitAtLastHuman msgs with
  | some (_, h, _) => h.id
  | none => none

/-- The messages at positions `index > lastHumanIndex`; the whole list when
there is no human message (`lastHumanIndex === -1`). -/
def afterLastHuman (msgs : List Message) : List Message :=
  match splitAtLastHuman msgs with
  | some (_, _, a) => a
  | none => msgs

/-- `messages.slice(0, lastHumanIndex)` for a present last human. -/
def beforeLastHuman (msgs : List Message) : List Message :=
  match splitAtLastHuman msgs with
  | some (b, _, _) => b
  | none => []

/-- Insert a message into an id-keyed map under its own id, but only when the
predicate accepts it (the predicate always implies a truthy id). -/
def insertIf (p : Message → Bool) (acc : Accum) (m : Message) : Accum :=
  if p m then mapSet acc (idKey m.id) m else acc

/-- The condition of the capture effect:
`msg.id && (msg.type === "ai" || msg.type === "tool")`. -/
def captureQualifies (m : Message) : Bool :=
  idTruthy m.id && (m.type == MsgType.ai || m.type == MsgType.tool)

/-- The `forEach` body of the capture effect: record every qualifying message
into the accumulator keyed by its id. -/
def recordAll (streamed : Accum) (l : List Message) : Accum :=
  l.foldl (insertIf captureQualifies) streamed

/-- The "capture and accumulate all messages during streaming" effect
(index.tsx lines 324-350).  When not loading it does nothing; when an
optimistic message is pending and the last human of the store differs from it
by id, nothing is recorded; otherwise every ai/tool message with a truthy id
positioned after the last human message is recorded. -/
def captureStreamedMessages (streamed : Accum) (msgs : List Message)
    (optimistic : Option Message) (isLoading : Bool) : Accum :=
  if !isLoading then streamed
  else
    match optimistic with
    | some om =>
      if !(lastHumanId msgs == om.id) then streamed
      else recordAll streamed (afterLastHuman msgs)
    | none => recordAll streamed (afterLastHuman msgs)

/-- The "persist intermediate groups when streaming completes" effect
(index.tsx lines 290-321).  Returns the new persistence cache and the new
accumulator. -/
def persistStep (cache : GroupsMap) (streamed : Accum) (msgs : List Message)
    (isLoading : Bool) : GroupsMap × Accum :=
  if !isLoading && !streamed.isEmpty then
    let newCache :=
      match splitAtLastHuman msgs with
      | some (_, h, _) =>
        if idTruthy h.id then
          let currentIds : List (Option String) := msgs.map (fun m => m.id)
          let inter :=
            (mapValues streamed).filter (fun m => !(currentIds.contains m.id))
          if !inter.isEmpty then mapSet cache h.id inter else cache
        else cache
      | none => cache
    (newCache, [])
  else (cache, streamed)

/-- The "clear optimistic message when it appears in the stream or on error"
effect (index.tsx lines 266-275). -/
def clearOptimisticMessage (optimistic : Option Message)
    (msgs : List Message) (errorPresent : Bool) : Option Message :=
  match optimistic with
  | some om =>
    if msgs.any (fun m => m.id == om.id) || errorPresent then none
    else optimistic
  | none => none

/-- One insertion of the dedup-by-id merge inside `finalizeTurn`
(`m.id && allAIsMap.set(m.id, m)`): messages with falsy ids are skipped. -/
def mergeInsert (acc : Accum) (m : Message) : Accum :=
  insertIf (fun m2 => idTruthy m2.id) acc m

/-- The merge of `finalizeTurn`: persisted intermediates first, then the
current ais, dedup by id with the later (live) insertion overwriting the
value in place. -/
def mergeById (persisted ais : List Message) : List Message :=
  mapValues (ais.foldl mergeInsert (persisted.foldl mergeInsert []))

/-- `finalizeTurn` (index.tsx lines 438-459): returns the messages appended
to `finalMessages` for this turn and the updated groups map. -/
def finalizeTurn (groups : GroupsMap) (human : Message)
    (ais : List Message) : List Message × GroupsMap :=
  let persisted := (mapGet groups human.id).getD []
  let allAIs := mergeById persisted ais
  match allAIs.getLast? with
  | some finalAI => ([human, finalAI], mapSet groups human.id allAIs.dropLast)
  | none => ([human], groups)

/-- The turn-scanning loop from the first human message on: each human starts
a new turn; ai/tool messages join the current turn. -/
def turnsGo (h : Message) (ais : List Message) :
    List Message → List (Message × List Message)
  | [] => [(h, ais)]
  | m :: rest =>
    if m.type = MsgType.human then (h, ais) :: turnsGo m [] rest
    else turnsGo h (ais ++ [m]) rest

/-- The scan of `baseMessages` (index.tsx lines 461-478): ai/tool messages
before any human are orphans pushed directly to `finalMessages`; the rest is
partitioned into turns. -/
def orphansAndTurns : List Message → List Message × List (Message × List Message)
  | [] => ([], [])
  | m :: rest =>
    if m.type = MsgType.human then ([], turnsGo m [] rest)
    else (m :: (orphansAndTurns rest).1, (orphansAndTurns rest).2)

/-- The replacement of the active turn's ais by the filtered accumulator
contents (index.tsx lines 485-498). -/
def activeAis (prevIds : List (Option String)) (streamedVals : List Message)
    (useStreamed : Bool) (ais : List Message) : List Message :=
  if useStreamed then streamedVals.filter (fun m => !(prevIds.contains m.id))
  else ais

/-- Finalize the scanned turns in order; the last turn (the active one) uses
the accumulator contents when the accumulator is non-empty. -/
def processTurns (prevIds : List (Option String)) (streamedVals : List Message)
    (useStreamed : Bool) : GroupsMap → List (Message × List Message) →
    List Message × GroupsMap
  | g, [] => ([], g)
  | g, (h, ais) :: rest =>
    match rest with
    | [] => finalizeTurn g h (activeAis prevIds streamedVals useStreamed ais)
    | _ :: _ =>
      let og2 := finalizeTurn g h ais
      let og3 := processTurns prevIds streamedVals useStreamed og2.2 rest
      (og2.1 ++ og3.1, og3.2)

structure ReconcileResult where
  messages : List Message
  intermediateGroups : GroupsMap
  deriving DecidableEq, Repr

/-- `baseMessages`: the store's sequence with the optimistic message appended
when no message with its id is already present. -/
def baseOf (msgs : List Message) (optimistic : Option Message) :
    List Message :=
  msgs ++ (match optimistic with
    | some om => if msgs.any (fun m => m.id == om.id) then [] else [om]
    | none => [])

/-- The early block of the reconciler (index.tsx lines 378-419): when a last
human with a truthy id exists and the accumulator is non-empty, the groups
map entry for that human is overwritten with all accumulator values but the
last one. -/
def presetGroups (cache : GroupsMap) (base : List Message) (streamed : Accum)
    (isLoading : Bool) : GroupsMap :=
  match splitAtLastHuman base with
  | some (_, h, _) =>
    if isLoading || !streamed.isEmpty then
      if idTruthy h.id then
        if !streamed.isEmpty then
          mapSet cache h.id ((mapValues streamed).dropLast)
        else cache
      else cache
    else cache
  | none => cache

/-- The Turn Reconciler (the `useMemo` of index.tsx lines 353-513): a pure
function of the store's sequence, the accumulator, the loading flag, the
persistence cache and the optimistic message. -/
def reconcile (msgs : List Message) (streamed : Accum) (isLoading : Bool)
    (cache : GroupsMap) (optimistic : Option Message) : ReconcileResult :=
  let base := baseOf msgs optimistic
  let groups1 := presetGroups cache base streamed isLoading
  let ot := orphansAndTurns base
  let prevIds := (beforeLastHuman base).map (fun m => m.id)
  let pt := processTurns prevIds (mapValues streamed) (!streamed.isEmpty)
    groups1 ot.2
  ⟨ot.1 ++ pt.1, pt.2⟩

/-- The locally owned state of the conversation view that the effects
mutate. -/
structure CoreState where
  streamed : Accum
  cache : GroupsMap
  optimistic : Option Message
  deriving DecidableEq, Repr

/-- One Message Store notification. -/
structure Notif where
  messages : List Message
  isLoading : Bool
  errorPresent : Bool
  deriving DecidableEq, Repr

/-- One pass of the component's effects over a notification (they all read
the pre-pass state, as React batches their updates): clear the optimistic
message, persist on stream end, capture while streaming. -/
def effectStep (s : CoreState) (n : Notif) : CoreState :=
  let opt2 := clearOptimisticMessage s.optimistic n.messages n.errorPresent
  let pc := persistStep s.cache s.streamed n.messages n.isLoading
  let streamed2 := captureStreamedMessages pc.2 n.messages s.optimistic
    n.isLoading
  ⟨streamed2, pc.1, opt2⟩

/-- The reconciler applied to a component state and a notification. -/
def reconcileState (s : CoreState) (n : Notif) : ReconcileResult :=
  reconcile n.messages s.streamed n.isLoading s.cache s.optimistic

/-- `setThreadId` (index.tsx lines 519-532) resets the accumulator, the
persistence cache and the optimistic message. -/
def setThreadIdReset : CoreState := ⟨[], [], none⟩

/-- The ids the reconciler attributes to the active (last) turn: the ids of
its intermediate group plus the id of its final message (the last element of
`finalMessages` when that element is not a human message). -/
def visibleIds (r : ReconcileResult) (hid : Option String) :
    List (Option String) :=
  (((mapGet r.intermediateGroups hid).getD []).map (fun m => m.id)) ++
    (match r.messages.getLast? with
     | some m => if m.type = MsgType.human then [] else [m.id]
     | none => [])

/-- The number of distinct message ids attributed to the active turn. -/
def visibleCount (r : ReconcileResult) (hid : Option String) : Nat :=
  (visibleIds r hid).dedup.length

/- ------------------------------------------------------------------ -/
/- Thread management provider (ThreadProvider).                        -/
/- ------------------------------------------------------------------ -/

/-- A thread as the history UI sees it: its id and the metadata fields the
client reads. -/
structure ThreadInfo where
  threadId : String
  temporary : Option String
  title : Option String
  deriving DecidableEq, Repr

/-- The timeout passed to `setTimeout` in `deleteThread`. -/
def deleteTimeoutMs : Nat := 15000

/-- The timeout passed to `setTimeout` in `duplicateThread`. -/
def duplicateTimeoutMs : Nat := 15000

/-- The timeout passed to `setTimeout` in `renameThread`. -/
def renameTimeoutMs : Nat := 15000

/-- The client-side resolution of `Promise.race([opPromise, timeoutPromise])`
for delete/rename: the request resolved, the timeout fired first, or the
request rejected. -/
inductive OpOutcome
  | success
  | timeout
  | failure
  deriving DecidableEq, Repr

/-- The outcome of the duplicate race; on success the list is refreshed from
`getThreads`. -/
inductive DuplicateOutcome
  | success (refreshed : List ThreadInfo)
  | timeout
  | failure
  deriving DecidableEq, Repr

/-- The observable result of one thread-management operation: the thread
list, the in-flight marker set and the toast shown (if any). -/
structure OpResult where
  threads : List ThreadInfo
  inFlight : List String
  toast : Option String
  deriving DecidableEq, Repr

def deleteSuccessToast : String := "Chat deleted successfully."
def deleteTimeoutToast : String :=
  "Delete request timed out. Please check your connection and try again."
def deleteFailureToast : String :=
  "Failed to delete chat. Please try again later."

def duplicateSuccessToast : String := "Chat duplicated successfully."
def duplicateTimeoutToast : String :=
  "Duplicate request timed out. Please check your connection and try again."
def duplicateFailureToast : String :=
  "Failed to duplicate chat. Please try again later."

def renameSuccessToast : String := "Chat renamed successfully."
def renameTimeoutToast : String :=
  "Rename request timed out. Please check your connection and try again."
def renameFailureToast : String :=
  "Failed to rename chat. Please try again later."

/-- `deleteThread`: the guards, the marker added then removed in `finally`,
and the three race outcomes. -/
def deleteThread (hasApiUrl : Bool) (threads : List ThreadInfo)
    (deleting : List String) (tid : String) (outcome : OpOutcome) :
    OpResult :=
  if !hasApiUrl then ⟨threads, deleting, none⟩
  else if deleting.contains tid then ⟨threads, deleting, none⟩
  else
    let marked := deleting ++ [tid]
    let cleared := marked.filter (fun t2 => !(t2 == tid))
    match outcome with
    | .success =>
      ⟨threads.filter (fun t => !(t.threadId == tid)), cleared,
        some deleteSuccessToast⟩
    | .timeout => ⟨threads, cleared, some deleteTimeoutToast⟩
    | .failure => ⟨threads, cleared, some deleteFailureToast⟩

/-- `duplicateThread`: like delete, but a success refreshes the list from
`getThreads`. -/
def duplicateThread (hasApiUrl : Bool) (threads : List ThreadInfo)
    (duplicating : List String) (tid : String)
    (outcome : DuplicateOutcome) : OpResult :=
  if !hasApiUrl then ⟨threads, duplicating, none⟩
  else if duplicating.contains tid then ⟨threads, duplicating, none⟩
  else
    let marked := duplicating ++ [tid]
    let cleared := marked.filter (fun t2 => !(t2 == tid))
    match outcome with
    | .success refreshed => ⟨refreshed, cleared, some duplicateSuccessToast⟩
    | .timeout => ⟨threads, cleared, some duplicateTimeoutToast⟩
    | .failure => ⟨threads, cleared, some duplicateFailureToast⟩

/-- `renameThread`: a success optimistically rewrites the title of the
matching thread. -/
def renameThread (hasApiUrl : Bool) (threads : List ThreadInfo)
    (renamingIds : List String) (tid : String) (title : String)
    (outcome : OpOutcome) : OpResult :=
  if !hasApiUrl then ⟨threads, renamingIds, none⟩
  else if renamingIds.contains tid then ⟨threads, renamingIds, none⟩
  else
    let marked := renamingIds ++ [tid]
    let cleared := marked.filter (fun t2 => !(t2 == tid))
    match outcome with
    | .success =>
      ⟨threads.map (fun t =>
          if t.threadId == tid then { t with title := some title } else t),
        cleared, some renameSuccessToast⟩
    | .timeout => ⟨threads, cleared, some renameTimeoutToast⟩
    | .failure => ⟨threads, cleared, some renameFailureToast⟩

/-- The pure tail of `getThreads` after the search resolves: the first
component is the list returned to the caller (temporary threads filtered
out), the second is the new `allThreadsCache` (everything). -/
def getThreads (allThreads : List ThreadInfo) :
    List ThreadInfo × List ThreadInfo :=
  (allThreads.filter (fun t => !(t.temporary == some "true")), allThreads)

/-- `isCurrentThreadTemporary`: a falsy thread id is not temporary; otherwise
look the thread up in `allThreadsCache`. -/
def isCurrentThreadTemporary (allThreadsCache : List ThreadInfo)
    (threadId : Option String) : Bool :=
  match threadId with
  | none => false
  | some tid =>
    if tid == "" then false
    else
      match allThreadsCache.find? (fun t => t.threadId == tid) with
      | some th => th.temporary == some "true"
      | none => false

/- ------------------------------------------------------------------ -/
/- Analysis helpers (not part of the embedding).                       -/
/- ------------------------------------------------------------------ -/

/-- Well-formedness of the accumulator as maintained by the capture effect:
keys are distinct, and every entry stores a message under its own (truthy)
id. -/
def AccumWF (a : Accum) : Prop :=
  (mapKeys a).Nodup ∧ ∀ q ∈ a, q.2.id = some q.1 ∧ ¬(q.1 = "")

instance (a : Accum) : Decidable (AccumWF a) := by
  unfold AccumWF
  infer_instance

/-- The capture effect only records assistant/tool messages. -/
def AccumNoHuman (a : Accum) : Prop :=
  ∀ q ∈ a, ¬(q.2.type = MsgType.human)

instance (a : Accum) : Decidable (AccumNoHuman a) := by
  unfold AccumNoHuman
  infer_instance

/-- No message stored anywhere in a groups map carries the id `x`. -/
def GroupsNoX (x : String) (g : GroupsMap) : Prop :=
  ∀ q ∈ g, ∀ m ∈ q.2, (m.id == some x) = false

/-- The messages of a list of turns, in scan order (each human followed by
its in-turn ai/tool messages). -/
def flattenTurns : List (Message × List Message) → List Message
  | [] => []
  | t :: rest => t.1 :: (t.2 ++ flattenTurns rest)

/-- Finalizing a list of turns in order with no special treatment of the last
one (used to analyse `processTurns`). -/
def runTurns : GroupsMap → List (Message × List Message) →
    List Message × GroupsMap
  | g, [] => ([], g)
  | g, (h, ais) :: rest =>
    let o1 := finalizeTurn g h ais
    let o2 := runTurns o1.2 rest
    (o1.1 ++ o2.1, o2.2)

/- Concrete messages used by witnesses and counterexamples. -/

def msgH : Message := ⟨some "h", MsgType.human, "list all redis"⟩

def msgA : Message := ⟨some "a", MsgType.ai, "step A"⟩

def msgB : Message := ⟨some "b", MsgType.ai, "step B"⟩

def msgG : Message := ⟨some "g", MsgType.ai, "regenerated"⟩

def msgNoId : Message := ⟨none, MsgType.ai, "unidentifiable"⟩

def msgOpt : Message := ⟨some "x", MsgType.human, "next question"⟩

def msgT1 : Message := ⟨some "t1", MsgType.tool, "tool call"⟩

def msgA1 : Message := ⟨some "a1", MsgType.ai, "final answer"⟩

def exThread : ThreadInfo := ⟨"t-perm", none, some "kept"⟩

def exTempThread : ThreadInfo := ⟨"t-temp", some "true", none⟩

/- ------------------------------------------------------------------ -/
/- Association-list (JS Map) lemmas.                                   -/
/- ------------------------------------------------------------------ -/

theorem mapKeys_append {α β : Type} (m1 m2 : List (α × β)) :
    mapKeys (m1 ++ m2) = mapKeys m1 ++ mapKeys m2 := by
  simp [mapKeys]

theorem mapValues_append {α β : Type} (m1 m2 : List (α × β)) :
    mapValues (m1 ++ m2) = mapValues m1 ++ mapValues m2 := by
  simp [mapValues]

theorem length_mapValues {α β : Type} (m : List (α × β)) :
    (mapValues m).length = m.length := by
  simp [mapValues]

theorem mem_mapValues {α β : Type} {m : List (α × β)} {w : β} :
    w ∈ mapValues m ↔ ∃ q ∈ m, q.2 = w := by
  simp [mapValues, List.mem_map]

theorem any_key_iff {α β : Type} [BEq α] [LawfulBEq α]
    (m : List (α × β)) (k : α) :
    m.any (fun p => p.1 == k) = true ↔ k ∈ mapKeys m := by
  simp [mapKeys, List.any_eq_true, List.mem_map, beq_iff_eq]

theorem find?_cons_pos {α : Type} (p : α → Bool) (a : α) (l : List α)
    (h : p a = true) : (a :: l).find? p = some a :=
  List.find?_cons_of_pos l h

theorem find?_cons_neg {α : Type} (p : α → Bool) (a : α) (l : List α)
    (h : p a = false) : (a :: l).find? p = l.find? p :=
  List.find?_cons_of_neg l (by simp [h])

theorem find?_overwrite {α β : Type} [BEq α] [LawfulBEq α]
    (m : List (α × β)) (k : α) (v : β)
    (h : m.any (fun p => p.1 == k) = true) :
    (m.map (fun p => if p.1 == k then (k, v) else p)).find?
      (fun p => p.1 == k) = some (k, v) := by
  induction m with
  | nil => simp at h
  | cons a t ih =>
    by_cases hk : (a.1 == k) = true
    · simp only [List.map_cons, if_pos hk]
      exact List.find?_cons_of_pos _ (by simp)
    · simp only [List.map_cons, if_neg hk]
      rw [List.find?_cons_of_neg _ (by simpa using hk)]
      apply ih
      simp only [List.any_cons, Bool.or_eq_true] at h
      rcases h with h | h
      · exact absurd h hk
      · exact h

theorem find?_overwrite_ne {α β : Type} [BEq α] [LawfulBEq α]
    (m : List (α × β)) (k2 : α) (v : β) (k : α) (hne : (k2 == k) = false) :
    (m.map (fun p => if p.1 == k2 then (k2, v) else p)).find?
      (fun p => p.1 == k) = m.find? (fun p => p.1 == k) := by
  induction m with
  | nil => rfl
  | cons a t ih =>
    by_cases hk2 : (a.1 == k2) = true
    · have ha : a.1 = k2 := by simpa using hk2
      have hak : ((a.1 == k) = true) → False := by
        intro hh
        rw [ha] at hh
        rw [hne] at hh
        cases hh
      simp only [List.map_cons, if_pos hk2]
      rw [List.find?_cons_of_neg _ (by simpa using hne),
        List.find?_cons_of_neg _ (by simpa using hak)]
      exact ih
    · simp only [List.map_cons, if_neg hk2]
      by_cases hak : (a.1 == k) = true
      · rw [find?_cons_pos (fun p => p.1 == k) a _ hak,
          find?_cons_pos (fun p => p.1 == k) a _ hak]
      · rw [find?_cons_neg (fun p => p.1 == k) a _ (by simpa using hak),
          find?_cons_neg (fun p => p.1 == k) a _ (by simpa using hak)]
        exact ih

theorem find?_append_chain {α : Type} (l1 l2 : List α) (p : α → Bool) :
    (l1 ++ l2).find? p = ((l1.find? p).elim (l2.find? p) some) := by
  induction l1 with
  | nil => rfl
  | cons a t ih =>
    by_cases ha : p a = true
    · simp only [List.cons_append]
      rw [List.find?_cons_of_pos _ ha, List.find?_cons_of_pos _ ha]
      rfl
    · simp only [List.cons_append]
      rw [List.find?_cons_of_neg _ (by simpa using ha),
        List.find?_cons_of_neg _ (by simpa using ha)]
      exact ih

theorem mapGet_set_self {α β : Type} [BEq α] [LawfulBEq α]
    (m : List (α × β)) (k : α) (v : β) :
    mapGet (mapSet m k v) k = some v := by
  unfold mapSet mapGet
  by_cases h : m.any (fun p => p.1 == k) = true
  · rw [if_pos h, find?_overwrite m k v h]
    rfl
  · rw [if_neg h, find?_append_chain]
    have hnone : m.find? (fun p => p.1 == k) = none := by
      rw [List.find?_eq_none]
      intro x hx hpx
      exact (by simp [h] : ¬(m.any (fun p => p.1 == k) = true))
        (List.any_eq_true.mpr ⟨x, hx, hpx⟩)
    rw [hnone]
    simp only [Option.elim]
    rw [find?_cons_pos (fun p => p.1 == k) (k, v) [] (by simp)]
    rfl

theorem mapGet_set_ne {α β : Type} [BEq α] [LawfulBEq α]
    (m : List (α × β)) (k2 : α) (v : β) (k : α) (hne : (k2 == k) = false) :
    mapGet (mapSet m k2 v) k = mapGet m k := by
  unfold mapSet mapGet
  by_cases h : m.any (fun p => p.1 == k2) = true
  · rw [if_pos h, find?_overwrite_ne m k2 v k hne]
  · rw [if_neg h, find?_append_chain]
    cases hf : m.find? (fun p => p.1 == k) with
    | some x => rfl
    | none =>
      simp only [Option.elim]
      rw [List.find?_cons_of_neg _ (by simpa using hne)]
      rfl

theorem mapKeys_set_mem {α β : Type} [BEq α] [LawfulBEq α]
    (m : List (α × β)) (k : α) (v : β) (h : k ∈ mapKeys m) :
    mapKeys (mapSet m k v) = mapKeys m := by
  unfold mapSet
  rw [if_pos ((any_key_iff m k).mpr h)]
  unfold mapKeys
  rw [List.map_map]
  apply List.map_congr_left
  intro p hp
  by_cases hpk : (p.1 == k) = true
  · have : p.1 = k := by simpa using hpk
    simp [Function.comp, hpk, this]
  · simp [Function.comp, hpk]

theorem mapKeys_set_not_mem {α β : Type} [BEq α] [LawfulBEq α]
    (m : List (α × β)) (k : α) (v : β) (h : ¬ k ∈ mapKeys m) :
    mapKeys (mapSet m k v) = mapKeys m ++ [k] := by
  unfold mapSet
  rw [if_neg (fun hh => h ((any_key_iff m k).mp hh))]
  simp [mapKeys]

theorem mem_mapSet {α β : Type} [BEq α] [LawfulBEq α]
    {m : List (α × β)} {k : α} {v : β} {q : α × β}
    (h : q ∈ mapSet m k v) : q ∈ m ∨ q = (k, v) := by
  unfold mapSet at h
  by_cases ha : m.any (fun p => p.1 == k) = true
  · rw [if_pos ha] at h
    rcases List.mem_map.mp h with ⟨p, hp, hq⟩
    by_cases hpk : (p.1 == k) = true
    · right
      rw [← hq]
      simp [hpk]
    · left
      rw [← hq]
      simpa [hpk] using hp
  · rw [if_neg ha] at h
    rcases List.mem_append.mp h with h | h
    · exact Or.inl h
    · right
      simpa using h

theorem key_entry_unique {α β : Type} [BEq α] {m : List (α × β)} {k : α}
    {v : β} {p : α × β} (nd : (mapKeys m).Nodup) (h1 : (k, v) ∈ m)
    (hp : p ∈ m) (hk : p.1 = k) : p = (k, v) := by
  induction m with
  | nil => cases h1
  | cons a t ih =>
    have hnd : a.1 ∉ mapKeys t ∧ (mapKeys t).Nodup := by
      have h2 : (a.1 :: mapKeys t).Nodup := nd
      exact List.nodup_cons.mp h2
    rcases List.mem_cons.mp h1 with h1 | h1
    · rcases List.mem_cons.mp hp with hp | hp
      · rw [hp, h1]
      · exfalso
        apply hnd.1
        have hmem : p.1 ∈ mapKeys t := List.mem_map.mpr ⟨p, hp, rfl⟩
        have ha1 : a.1 = p.1 := by rw [← h1, hk]
        rw [ha1]
        exact hmem
    · rcases List.mem_cons.mp hp with hp | hp
      · exfalso
        apply hnd.1
        have hmem : k ∈ mapKeys t := List.mem_map.mpr ⟨(k, v), h1, rfl⟩
        have ha1 : a.1 = k := by rw [← hp, hk]
        rw [ha1]
        exact hmem
      · exact ih hnd.2 h1 hp

theorem mapSet_self {α β : Type} [BEq α] [LawfulBEq α]
    {m : List (α × β)} {k : α} {v : β}
    (nd : (mapKeys m).Nodup) (hm : (k, v) ∈ m) : mapSet m k v = m := by
  unfold mapSet
  have hany : m.any (fun p => p.1 == k) = true :=
    (any_key_iff m k).mpr (List.mem_map.mpr ⟨(k, v), hm, rfl⟩)
  rw [if_pos hany]
  conv_rhs => rw [← List.map_id m]
  apply List.map_congr_left
  intro p hp
  by_cases hpk : (p.1 == k) = true
  · have h1 : p.1 = k := by simpa using hpk
    have := key_entry_unique nd hm hp h1
    simp [hpk, this]
  · simp [hpk]

theorem mapGet_mem {α β : Type} [BEq α] {m : List (α × β)} {k : α} {v : β}
    (h : mapGet m k = some v) : ∃ k2, (k2, v) ∈ m := by
  unfold mapGet at h
  cases hf : m.find? (fun p => p.1 == k) with
  | none => rw [hf] at h; cases h
  | some p =>
    rw [hf] at h
    refine ⟨p.1, ?_⟩
    have hp := List.mem_of_find?_eq_some hf
    have : p.2 = v := by simpa using h
    rw [← this]
    exact hp

/- ------------------------------------------------------------------ -/
/- Lemmas about folded id-keyed insertions.                            -/
/- ------------------------------------------------------------------ -/

theorem mergeInsert_eq : mergeInsert = insertIf (fun m2 => idTruthy m2.id) :=
  rfl

theorem mapGet_foldl_insertIf (p : Message → Bool) (l : List Message)
    (k : String) : ∀ acc : Accum,
    mapGet (l.foldl (insertIf p) acc) k =
      ((l.filter (fun m => p m && (idKey m.id == k))).getLast?).elim
        (mapGet acc k) some := by
  induction l with
  | nil => intro acc; rfl
  | cons m t ih =>
    intro acc
    rw [List.foldl_cons, ih, List.filter_cons]
    by_cases hq : (p m && (idKey m.id == k)) = true
    · rw [if_pos hq]
      have hq2 : p m = true ∧ (idKey m.id == k) = true := by
        simpa using hq
      have hpm : p m = true := hq2.1
      have hkeq : idKey m.id = k := by simpa using hq2.2
      rcases hft : t.filter (fun m2 => p m2 && (idKey m2.id == k)) with _ | ⟨y, ys⟩
      · simp only [List.getLast?_singleton, Option.elim]
        unfold insertIf
        rw [if_pos hpm, hkeq]
        exact mapGet_set_self acc k m
      · rw [List.getLast?_cons_cons,
          List.getLast?_eq_getLast (y :: ys) (by simp)]
        rfl
    · rw [if_neg hq]
      have hstep : mapGet (insertIf p acc m) k = mapGet acc k := by
        unfold insertIf
        by_cases hpm : p m = true
        · rw [if_pos hpm]
          have hik : (idKey m.id == k) = false := by
            cases hik2 : (idKey m.id == k) with
            | false => rfl
            | true => exact absurd (by simp [hpm, hik2]) hq
          exact mapGet_set_ne acc (idKey m.id) m k hik
        · rw [if_neg hpm]
      rw [hstep]

theorem mapKeys_insertIf (p : Message → Bool) (acc : Accum) (m : Message) :
    ∃ fr, mapKeys (insertIf p acc m) = mapKeys acc ++ fr := by
  unfold insertIf
  by_cases hpm : p m = true
  · rw [if_pos hpm]
    by_cases hk : idKey m.id ∈ mapKeys acc
    · exact ⟨[], by rw [mapKeys_set_mem acc _ m hk, List.append_nil]⟩
    · exact ⟨[idKey m.id], mapKeys_set_not_mem acc _ m hk⟩
  · rw [if_neg hpm]
    exact ⟨[], (List.append_nil _).symm⟩

theorem mapKeys_foldl_insertIf (p : Message → Bool) (l : List Message) :
    ∀ acc : Accum, ∃ fr,
      mapKeys (l.foldl (insertIf p) acc) = mapKeys acc ++ fr := by
  induction l with
  | nil => intro acc; exact ⟨[], (List.append_nil _).symm⟩
  | cons m t ih =>
    intro acc
    rw [List.foldl_cons]
    rcases mapKeys_insertIf p acc m with ⟨fr1, h1⟩
    rcases ih (insertIf p acc m) with ⟨fr2, h2⟩
    exact ⟨fr1 ++ fr2, by rw [h2, h1, List.append_assoc]⟩

theorem mem_foldl_insertIf (p : Message → Bool) (l : List Message) :
    ∀ (acc : Accum) (q : String × Message), q ∈ l.foldl (insertIf p) acc →
      q ∈ acc ∨ (q.2 ∈ l ∧ p q.2 = true ∧ q.1 = idKey q.2.id) := by
  induction l with
  | nil =>
    intro acc q h
    exact Or.inl h
  | cons m t ih =>
    intro acc q h
    rw [List.foldl_cons] at h
    rcases ih _ q h with h2 | ⟨h2, h3, h4⟩
    · unfold insertIf at h2
      by_cases hpm : p m = true
      · rw [if_pos hpm] at h2
        rcases mem_mapSet h2 with h3 | h3
        · exact Or.inl h3
        · right
          rw [h3]
          exact ⟨by simp, hpm, rfl⟩
      · rw [if_neg hpm] at h2
        exact Or.inl h2
    · exact Or.inr ⟨by simp [h2], h3, h4⟩

theorem AccumWF_insertIf (p : Message → Bool)
    (hp : ∀ m2, p m2 = true → idTruthy m2.id = true)
    (acc : Accum) (m : Message) (h : AccumWF acc) :
    AccumWF (insertIf p acc m) := by
  unfold insertIf
  by_cases hpm : p m = true
  · rw [if_pos hpm]
    have htr := hp m hpm
    have hid : m.id = some (idKey m.id) ∧ ¬(idKey m.id = "") := by
      cases hm : m.id with
      | none => rw [hm] at htr; cases htr
      | some s =>
        rw [hm] at htr
        refine ⟨by simp [idKey], ?_⟩
        simp only [idKey]
        simpa [idTruthy] using htr
    constructor
    · by_cases hk : idKey m.id ∈ mapKeys acc
      · rw [mapKeys_set_mem acc _ m hk]
        exact h.1
      · rw [mapKeys_set_not_mem acc _ m hk]
        rw [List.nodup_append]
        refine ⟨h.1, by simp, ?_⟩
        intro a ha hcontra
        simp only [List.mem_singleton] at hcontra
        exact hk (hcontra ▸ ha)
    · intro q hq
      rcases mem_mapSet hq with h2 | h2
      · exact h.2 q h2
      · rw [h2]
        exact ⟨hid.1, hid.2⟩
  · rw [if_neg hpm]
    exact h

theorem AccumWF_foldl_insertIf (p : Message → Bool)
    (hp : ∀ m2, p m2 = true → idTruthy m2.id = true) (l : List Message) :
    ∀ acc : Accum, AccumWF acc → AccumWF (l.foldl (insertIf p) acc) := by
  induction l with
  | nil => intro acc h; exact h
  | cons m t ih =>
    intro acc h
    rw [List.foldl_cons]
    exact ih _ (AccumWF_insertIf p hp acc m h)

theorem AccumWF_values_id (a : Accum) (h : AccumWF a) :
    (mapValues a).map (fun m => m.id) = (mapKeys a).map some := by
  unfold mapValues mapKeys
  rw [List.map_map, List.map_map]
  apply List.map_congr_left
  intro q hq
  simp [Function.comp, (h.2 q hq).1]

theorem AccumWF_values_truthy (a : Accum) (h : AccumWF a) :
    ∀ m ∈ mapValues a, idTruthy m.id = true := by
  intro m hm
  rcases mem_mapValues.mp hm with ⟨q, hq, hq2⟩
  rcases h.2 q hq with ⟨h1, h2⟩
  rw [← hq2, h1]
  simpa [idTruthy] using h2

theorem AccumWF_values_keys (a : Accum) (h : AccumWF a) :
    (mapValues a).map (fun m => idKey m.id) = mapKeys a := by
  unfold mapValues mapKeys
  rw [List.map_map]
  apply List.map_congr_left
  intro q hq
  simp [Function.comp, (h.2 q hq).1, idKey]

theorem AccumWF_dropLast (a : Accum) (h : AccumWF a) : AccumWF a.dropLast := by
  constructor
  · have h2 : mapKeys a.dropLast = (mapKeys a).dropLast := by
      unfold mapKeys
      exact List.map_dropLast _ _
    rw [h2]
    exact (List.dropLast_sublist _).nodup h.1
  · intro q hq
    exact h.2 q ((List.dropLast_sublist a).subset hq)

theorem pair_map_id (a : Accum) (h : AccumWF a) :
    (mapValues a).map (fun m => (idKey m.id, m)) = a := by
  unfold mapValues
  rw [List.map_map]
  conv_rhs => rw [← List.map_id a]
  apply List.map_congr_left
  intro q hq
  simp [Function.comp, (h.2 q hq).1, idKey]

theorem foldl_insertIf_fresh (p : Message → Bool) (l : List Message) :
    ∀ acc : Accum, (∀ m ∈ l, p m = true) →
    ((l.map (fun m => idKey m.id)).Nodup) →
    (∀ m ∈ l, ¬(idKey m.id ∈ mapKeys acc)) →
    l.foldl (insertIf p) acc = acc ++ l.map (fun m => (idKey m.id, m)) := by
  induction l with
  | nil =>
    intro acc _ _ _
    simp
  | cons m t ih =>
    intro acc hall hnd hdisj
    rw [List.foldl_cons]
    have hnd2 : (idKey m.id ∉ t.map (fun m2 => idKey m2.id))
        ∧ (t.map (fun m2 => idKey m2.id)).Nodup := by
      have h2 : (idKey m.id :: t.map (fun m2 => idKey m2.id)).Nodup := hnd
      exact List.nodup_cons.mp h2
    have h1 : insertIf p acc m = acc ++ [(idKey m.id, m)] := by
      unfold insertIf
      rw [if_pos (hall m (by simp))]
      unfold mapSet
      rw [if_neg (fun hh => hdisj m (by simp) ((any_key_iff _ _).mp hh))]
    rw [h1, ih (acc ++ [(idKey m.id, m)])
      (fun m2 hm2 => hall m2 (by simp [hm2])) hnd2.2 ?_]
    · simp
    · intro m2 hm2 hk
      rw [mapKeys_append] at hk
      rcases List.mem_append.mp hk with hk | hk
      · exact hdisj m2 (by simp [hm2]) hk
      · have h3 : idKey m2.id = idKey m.id := by
          simpa [mapKeys] using hk
        exact hnd2.1 (h3 ▸ List.mem_map.mpr ⟨m2, hm2, rfl⟩)

theorem foldl_insertIf_overwrite (p : Message → Bool) (l : List Message)
    (acc : Accum) (nd : (mapKeys acc).Nodup)
    (h : ∀ m ∈ l, p m = true ∧ (idKey m.id, m) ∈ acc) :
    l.foldl (insertIf p) acc = acc := by
  induction l with
  | nil => rfl
  | cons m t ih =>
    rw [List.foldl_cons]
    have h1 : insertIf p acc m = acc := by
      unfold insertIf
      rw [if_pos (h m (by simp)).1]
      exact mapSet_self nd (h m (by simp)).2
    rw [h1]
    exact ih (fun m2 hm2 => h m2 (by simp [hm2]))

theorem mergeById_rebuild (S : Accum) (hwf : AccumWF S) :
    mergeById (mapValues S).dropLast (mapValues S) = mapValues S := by
  induction S using List.reverseRecOn with
  | nil => rfl
  | append_singleton S0 q ih =>
    clear ih
    have hq : q ∈ S0 ++ [q] := by simp
    have hq2 := hwf.2 q hq
    have hkeys : (mapKeys S0 ++ [q.1]).Nodup := by
      have h2 : mapKeys (S0 ++ [q]) = mapKeys S0 ++ [q.1] := by
        simp [mapKeys]
      rw [← h2]
      exact hwf.1
    have hfresh : ¬(q.1 ∈ mapKeys S0) := by
      intro hcon
      rcases List.nodup_append.mp hkeys with ⟨_, _, hdisj⟩
      exact hdisj hcon (by simp)
    have hwf0 : AccumWF S0 := by
      constructor
      · exact (List.nodup_append.mp hkeys).1
      · intro r hr
        exact hwf.2 r (by simp [hr])
    have hv : mapValues (S0 ++ [q]) = mapValues S0 ++ [q.2] := by
      simp [mapValues]
    have hdl : (mapValues (S0 ++ [q])).dropLast = mapValues S0 := by
      rw [hv]
      simp
    have hinner : (mapValues S0).foldl mergeInsert [] = S0 := by
      rw [mergeInsert_eq]
      rw [foldl_insertIf_fresh _ _ []
        (fun m hm => AccumWF_values_truthy S0 hwf0 m hm)
        (by rw [AccumWF_values_keys S0 hwf0]; exact hwf0.1)
        (fun m _ hk => by simp [mapKeys] at hk)]
      rw [List.nil_append]
      exact pair_map_id S0 hwf0
    have hover : (mapValues S0).foldl mergeInsert S0 = S0 := by
      rw [mergeInsert_eq]
      apply foldl_insertIf_overwrite _ _ _ hwf0.1
      intro m hm
      rcases mem_mapValues.mp hm with ⟨r, hr, hr2⟩
      constructor
      · exact AccumWF_values_truthy S0 hwf0 m hm
      · have h3 : idKey m.id = r.1 := by
          rw [← hr2, (hwf0.2 r hr).1]
          rfl
        rw [h3, ← hr2]
        exact hr
    have hlast : insertIf (fun m2 => idTruthy m2.id) S0 q.2 = S0 ++ [q] := by
      unfold insertIf
      have htr : idTruthy q.2.id = true := by
        rw [hq2.1]
        simpa [idTruthy] using hq2.2
      rw [if_pos htr]
      unfold mapSet
      have hkq : idKey q.2.id = q.1 := by
        rw [hq2.1]
        rfl
      rw [if_neg (fun hh => hfresh (by
        rw [← hkq]
        exact (any_key_iff _ _).mp hh))]
      rw [hkq]
    unfold mergeById
    rw [hdl, hv, hinner, List.foldl_append, hover]
    rw [List.foldl_cons, List.foldl_nil, mergeInsert_eq, hlast]
    rw [hv]

/- ------------------------------------------------------------------ -/
/- Turn-partition lemmas.                                              -/
/- ------------------------------------------------------------------ -/

theorem turnsGo_flatten (l : List Message) :
    ∀ (h : Message) (acc : List Message),
    flattenTurns (turnsGo h acc l) = h :: (acc ++ l) := by
  induction l with
  | nil =>
    intro h acc
    simp [turnsGo, flattenTurns]
  | cons m t ih =>
    intro h acc
    unfold turnsGo
    by_cases hm : m.type = MsgType.human
    · rw [if_pos hm]
      unfold flattenTurns
      rw [ih m []]
      simp
    · rw [if_neg hm, ih h (acc ++ [m])]
      simp

theorem orphansAndTurns_flatten (l : List Message) :
    (orphansAndTurns l).1 ++ flattenTurns (orphansAndTurns l).2 = l := by
  induction l with
  | nil => rfl
  | cons m t ih =>
    unfold orphansAndTurns
    by_cases hm : m.type = MsgType.human
    · rw [if_pos hm]
      rw [List.nil_append, turnsGo_flatten t m []]
      simp
    · rw [if_neg hm]
      simpa using ih

theorem mem_flattenTurns (ts : List (Message × List Message))
    (t : Message × List Message) (ht : t ∈ ts) :
    t.1 ∈ flattenTurns ts ∧ ∀ m ∈ t.2, m ∈ flattenTurns ts := by
  induction ts with
  | nil => cases ht
  | cons t2 rest ih =>
    unfold flattenTurns
    rcases List.mem_cons.mp ht with ht | ht
    · rw [ht]
      exact ⟨by simp, fun m hm => by simp [hm]⟩
    · rcases ih ht with ⟨h1, h2⟩
      exact ⟨by simp [h1], fun m hm => by simp [h2 m hm]⟩

theorem turnsGo_wf (l : List Message) :
    ∀ (h : Message) (acc : List Message), h.type = MsgType.human →
    (∀ m ∈ acc, ¬(m.type = MsgType.human)) →
    ∀ t ∈ turnsGo h acc l,
      t.1.type = MsgType.human ∧ ∀ m ∈ t.2, ¬(m.type = MsgType.human) := by
  induction l with
  | nil =>
    intro h acc hh hacc t ht
    simp [turnsGo] at ht
    rw [ht]
    exact ⟨hh, hacc⟩
  | cons m r ih =>
    intro h acc hh hacc t ht
    unfold turnsGo at ht
    by_cases hm : m.type = MsgType.human
    · rw [if_pos hm] at ht
      rcases List.mem_cons.mp ht with ht | ht
      · rw [ht]
        exact ⟨hh, hacc⟩
      · exact ih m [] hm (by simp) t ht
    · rw [if_neg hm] at ht
      refine ih h (acc ++ [m]) hh ?_ t ht
      intro m2 hm2
      rcases List.mem_append.mp hm2 with hm2 | hm2
      · exact hacc m2 hm2
      · simp only [List.mem_singleton] at hm2
        rw [hm2]
        exact hm
  
theorem orphansAndTurns_wf (l : List Message) :
    (∀ m ∈ (orphansAndTurns l).1, ¬(m.type = MsgType.human))
    ∧ ∀ t ∈ (orphansAndTurns l).2,
        t.1.type = MsgType.human ∧ ∀ m ∈ t.2, ¬(m.type = MsgType.human) := by
  induction l with
  | nil => exact ⟨by simp [orphansAndTurns], by simp [orphansAndTurns]⟩
  | cons m t ih =>
    unfold orphansAndTurns
    by_cases hm : m.type = MsgType.human
    · rw [if_pos hm]
      exact ⟨by simp, fun t2 ht2 => turnsGo_wf t m [] hm (by simp) t2 ht2⟩
    · rw [if_neg hm]
      constructor
      · intro m2 hm2
        rcases List.mem_cons.mp hm2 with hm2 | hm2
        · rw [hm2]; exact hm
        · exact ih.1 m2 hm2
      · exact ih.2

theorem splitAtLastHuman_none (l : List Message)
    (hs : splitAtLastHuman l = none) : ∀ m ∈ l, ¬(m.type = MsgType.human) := by
  induction l with
  | nil => simp
  | cons m t ih =>
    unfold splitAtLastHuman at hs
    cases hst : splitAtLastHuman t with
    | some p =>
      rw [hst] at hs
      obtain ⟨b, h, a⟩ := p
      cases hs
    | none =>
      rw [hst] at hs
      by_cases hm : m.type = MsgType.human
      · rw [if_pos hm] at hs
        cases hs
      · intro m2 hm2
        rcases List.mem_cons.mp hm2 with hm2 | hm2
        · rw [hm2]; exact hm
        · exact ih hst m2 hm2

theorem splitAtLastHuman_none_of (l : List Message)
    (hl : ∀ m ∈ l, ¬(m.type = MsgType.human)) : splitAtLastHuman l = none := by
  induction l with
  | nil => rfl
  | cons m t ih =>
    unfold splitAtLastHuman
    rw [ih (fun m2 hm2 => hl m2 (by simp [hm2]))]
    rw [if_neg (hl m (by simp))]

theorem splitAtLastHuman_spec (l : List Message) :
    ∀ b h a, splitAtLastHuman l = some (b, h, a) →
    l = b ++ h :: a ∧ h.type = MsgType.human
      ∧ ∀ m ∈ a, ¬(m.type = MsgType.human) := by
  induction l with
  | nil => intro b h a hs; cases hs
  | cons m t ih =>
    intro b h a hs
    unfold splitAtLastHuman at hs
    cases hst : splitAtLastHuman t with
    | some p =>
      rw [hst] at hs
      obtain ⟨bt, ht, at2⟩ := p
      have hb : b = m :: bt ∧ h = ht ∧ a = at2 := by
        cases hs
        exact ⟨rfl, rfl, rfl⟩
      rcases hb with ⟨rfl, rfl, rfl⟩
      rcases ih bt h a hst with ⟨h1, h2, h3⟩
      exact ⟨by rw [List.cons_append, ← h1], h2, h3⟩
    | none =>
      rw [hst] at hs
      by_cases hm : m.type = MsgType.human
      · rw [if_pos hm] at hs
        have hb : b = [] ∧ h = m ∧ a = t := by
          cases hs
          exact ⟨rfl, rfl, rfl⟩
        rcases hb with ⟨rfl, rfl, rfl⟩
        exact ⟨rfl, hm, splitAtLastHuman_none a hst⟩
      · rw [if_neg hm] at hs
        cases hs

theorem turnsGo_nohuman (l : List Message)
    (hl : ∀ m ∈ l, ¬(m.type = MsgType.human)) :
    ∀ (h : Message) (acc : List Message), turnsGo h acc l = [(h, acc ++ l)] := by
  induction l with
  | nil =>
    intro h acc
    simp [turnsGo]
  | cons m t ih =>
    intro h acc
    unfold turnsGo
    rw [if_neg (hl m (by simp))]
    rw [ih (fun m2 hm2 => hl m2 (by simp [hm2])) h (acc ++ [m])]
    simp

theorem turnsGo_split (l : List Message) :
    ∀ b h a (hu : Message) (acc : List Message),
    splitAtLastHuman l = some (b, h, a) →
    ∃ ts, turnsGo hu acc l = ts ++ [(h, a)]
      ∧ ∀ t ∈ ts, t.1 = hu ∨ (t.1 ∈ b ∧ t.1.type = MsgType.human) := by
  induction l with
  | nil => intro b h a hu acc hs; cases hs
  | cons m t ih =>
    intro b h a hu acc hs
    unfold splitAtLastHuman at hs
    unfold turnsGo
    cases hst : splitAtLastHuman t with
    | some p =>
      rw [hst] at hs
      obtain ⟨bt, ht, at2⟩ := p
      have hb : b = m :: bt ∧ h = ht ∧ a = at2 := by
        cases hs
        exact ⟨rfl, rfl, rfl⟩
      rcases hb with ⟨rfl, rfl, rfl⟩
      by_cases hm : m.type = MsgType.human
      · rw [if_pos hm]
        rcases ih bt h a m [] hst with ⟨ts2, hts2, hh2⟩
        refine ⟨(hu, acc) :: ts2, by rw [hts2]; rfl, ?_⟩
        intro t2 ht2
        rcases List.mem_cons.mp ht2 with ht2 | ht2
        · rw [ht2]
          exact Or.inl rfl
        · rcases hh2 t2 ht2 with h2 | ⟨h2, h3⟩
          · exact Or.inr ⟨by rw [h2]; simp, by rw [h2]; exact hm⟩
          · exact Or.inr ⟨by simp [h2], h3⟩
      · rw [if_neg hm]
        rcases ih bt h a hu (acc ++ [m]) hst with ⟨ts2, hts2, hh2⟩
        refine ⟨ts2, hts2, ?_⟩
        intro t2 ht2
        rcases hh2 t2 ht2 with h2 | ⟨h2, h3⟩
        · exact Or.inl h2
        · exact Or.inr ⟨by simp [h2], h3⟩
    | none =>
      rw [hst] at hs
      by_cases hm : m.type = MsgType.human
      · rw [if_pos hm] at hs
        have hb : b = [] ∧ h = m ∧ a = t := by
          cases hs
          exact ⟨rfl, rfl, rfl⟩
        rcases hb with ⟨rfl, rfl, rfl⟩
        rw [if_pos hm]
        rw [turnsGo_nohuman a (splitAtLastHuman_none a hst) h []]
        refine ⟨[(hu, acc)], by simp, ?_⟩
        intro t2 ht2
        simp only [List.mem_singleton] at ht2
        rw [ht2]
        exact Or.inl rfl
      · rw [if_neg hm] at hs
        cases hs

theorem orphansAndTurns_split (l : List Message) :
    ∀ b h a, splitAtLastHuman l = some (b, h, a) →
    ∃ ts, (orphansAndTurns l).2 = ts ++ [(h, a)]
      ∧ ∀ t ∈ ts, t.1 ∈ b ∧ t.1.type = MsgType.human := by
  induction l with
  | nil => intro b h a hs; cases hs
  | cons m t ih =>
    intro b h a hs
    unfold splitAtLastHuman at hs
    unfold orphansAndTurns
    cases hst : splitAtLastHuman t with
    | some p =>
      rw [hst] at hs
      obtain ⟨bt, ht, at2⟩ := p
      have hb : b = m :: bt ∧ h = ht ∧ a = at2 := by
        cases hs
        exact ⟨rfl, rfl, rfl⟩
      rcases hb with ⟨rfl, rfl, rfl⟩
      by_cases hm : m.type = MsgType.human
      · rw [if_pos hm]
        rcases turnsGo_split t bt h a m [] hst with ⟨ts2, hts2, hh2⟩
        refine ⟨ts2, by simpa using hts2, ?_⟩
        intro t2 ht2
        rcases hh2 t2 ht2 with h2 | ⟨h2, h3⟩
        · exact ⟨by rw [h2]; simp, by rw [h2]; exact hm⟩
        · exact ⟨by simp [h2], h3⟩
      · rw [if_neg hm]
        rcases ih bt h a hst with ⟨ts2, hts2, hh2⟩
        refine ⟨ts2, by simpa using hts2, ?_⟩
        intro t2 ht2
        exact ⟨by simp [(hh2 t2 ht2).1], (hh2 t2 ht2).2⟩
    | none =>
      rw [hst] at hs
      by_cases hm : m.type = MsgType.human
      · rw [if_pos hm] at hs
        have hb : b = [] ∧ h = m ∧ a = t := by
          cases hs
          exact ⟨rfl, rfl, rfl⟩
        rcases hb with ⟨rfl, rfl, rfl⟩
        rw [if_pos hm]
        rw [turnsGo_nohuman a (splitAtLastHuman_none a hst) h []]
        exact ⟨[], by simp, by simp⟩
      · rw [if_neg hm] at hs
        cases hs

theorem orphans_subset (l : List Message) :
    ∀ m ∈ (orphansAndTurns l).1, m ∈ l := by
  intro m hm
  have h := orphansAndTurns_flatten l
  rw [← h]
  exact List.mem_append.mpr (Or.inl hm)

theorem turns_subset (l : List Message) :
    ∀ t ∈ (orphansAndTurns l).2, t.1 ∈ l ∧ ∀ m ∈ t.2, m ∈ l := by
  intro t ht
  have h := orphansAndTurns_flatten l
  rcases mem_flattenTurns (orphansAndTurns l).2 t ht with ⟨h1, h2⟩
  constructor
  · rw [← h]
    exact List.mem_append.mpr (Or.inr h1)
  · intro m hm
    rw [← h]
    exact List.mem_append.mpr (Or.inr (h2 m hm))

/- ------------------------------------------------------------------ -/
/- finalizeTurn and processTurns lemmas.                               -/
/- ------------------------------------------------------------------ -/

theorem getLast?_mem_list {α : Type} {l : List α} {a : α}
    (h : l.getLast? = some a) : a ∈ l := by
  cases l with
  | nil => cases h
  | cons b t =>
    rw [List.getLast?_eq_getLast (b :: t) (by simp)] at h
    injection h with h2
    exact h2 ▸ List.getLast_mem (by simp)

theorem finalizeTurn_eq (g : GroupsMap) (h : Message) (ais : List Message) :
    finalizeTurn g h ais =
      match (mergeById ((mapGet g h.id).getD []) ais).getLast? with
      | some f =>
        ([h, f], mapSet g h.id
          (mergeById ((mapGet g h.id).getD []) ais).dropLast)
      | none => ([h], g) := rfl

theorem mergeById_mem (persisted ais : List Message) (w : Message)
    (h : w ∈ mergeById persisted ais) : w ∈ persisted ∨ w ∈ ais := by
  unfold mergeById at h
  rw [mergeInsert_eq] at h
  rcases mem_mapValues.mp h with ⟨q, hq, hq2⟩
  rcases mem_foldl_insertIf _ _ _ q hq with h2 | ⟨h2, _, _⟩
  · rcases mem_foldl_insertIf _ _ _ q h2 with h3 | ⟨h3, _, _⟩
    · cases h3
    · exact Or.inl (hq2 ▸ h3)
  · exact Or.inr (hq2 ▸ h2)

theorem persisted_no (P : Message → Prop) (g : GroupsMap) (hid : Option String)
    (hg : ∀ q ∈ g, ∀ m ∈ q.2, P m) :
    ∀ m ∈ (mapGet g hid).getD [], P m := by
  intro m hm
  cases hget : mapGet g hid with
  | none => rw [hget] at hm; cases hm
  | some v =>
    rw [hget] at hm
    rcases mapGet_mem hget with ⟨k2, hk2⟩
    exact hg (k2, v) hk2 m hm

theorem finalizeTurn_mapGet_ne (g : GroupsMap) (h2 : Message)
    (ais : List Message) (hid : Option String)
    (hne : (h2.id == hid) = false) :
    mapGet (finalizeTurn g h2 ais).2 hid = mapGet g hid := by
  rw [finalizeTurn_eq]
  cases hlast : (mergeById ((mapGet g h2.id).getD []) ais).getLast? with
  | none => rfl
  | some f => exact mapGet_set_ne g h2.id _ hid hne

theorem finalizeTurn_prov (P : Message → Prop) (g : GroupsMap) (h : Message)
    (ais : List Message) (hg : ∀ q ∈ g, ∀ m ∈ q.2, P m) (hh : P h)
    (ha : ∀ m ∈ ais, P m) :
    (∀ m ∈ (finalizeTurn g h ais).1, P m)
      ∧ (∀ q ∈ (finalizeTurn g h ais).2, ∀ m ∈ q.2, P m) := by
  have hmerge : ∀ m ∈ mergeById ((mapGet g h.id).getD []) ais, P m := by
    intro m hm
    rcases mergeById_mem _ _ m hm with hm | hm
    · exact persisted_no P g h.id hg m hm
    · exact ha m hm
  rw [finalizeTurn_eq]
  cases hlast : (mergeById ((mapGet g h.id).getD []) ais).getLast? with
  | none =>
    constructor
    · intro m hm
      have : m = h := by simpa using hm
      rw [this]
      exact hh
    · exact hg
  | some f =>
    constructor
    · intro m hm
      have h2 : m = h ∨ m = f := by simpa using hm
      rcases h2 with rfl | rfl
      · exact hh
      · exact hmerge m (getLast?_mem_list hlast)
    · intro q hq
      rcases mem_mapSet hq with hq | hq
      · exact hg q hq
      · rw [hq]
        intro m hm
        exact hmerge m ((List.dropLast_sublist _).subset hm)

theorem countP_zero_of (p : Message → Bool) (l : List Message)
    (h : ∀ m ∈ l, p m = false) : l.countP p = 0 := by
  induction l with
  | nil => rfl
  | cons m t ih =>
    rw [List.countP_cons, ih (fun m2 hm2 => h m2 (by simp [hm2])),
      h m (by simp)]
    rfl

theorem finalizeTurn_countP (x : String) (g : GroupsMap) (h : Message)
    (ais : List Message) (hg : GroupsNoX x g)
    (ha : ∀ m ∈ ais, (m.id == some x) = false) :
    ((finalizeTurn g h ais).1.countP (fun m => m.id == some x)
        = (if (h.id == some x) = true then 1 else 0))
      ∧ GroupsNoX x (finalizeTurn g h ais).2 := by
  have hmerge : ∀ m ∈ mergeById ((mapGet g h.id).getD []) ais,
      (m.id == some x) = false := by
    intro m hm
    rcases mergeById_mem _ _ m hm with hm | hm
    · exact persisted_no (fun m2 => (m2.id == some x) = false) g h.id hg m hm
    · exact ha m hm
  rw [finalizeTurn_eq]
  cases hlast : (mergeById ((mapGet g h.id).getD []) ais).getLast? with
  | none =>
    constructor
    · by_cases hh : (h.id == some x) = true
      · simp [List.countP_cons, hh]
      · simp [List.countP_cons, hh]
    · exact hg
  | some f =>
    have hf : (f.id == some x) = false := hmerge f (getLast?_mem_list hlast)
    constructor
    · by_cases hh : (h.id == some x) = true
      · simp [List.countP_cons, hf, hh]
      · simp [List.countP_cons, hf, hh]
    · intro q hq
      rcases mem_mapSet hq with hq | hq
      · exact hg q hq
      · rw [hq]
        intro m hm
        exact hmerge m ((List.dropLast_sublist _).subset hm)

theorem runTurns_cons (g : GroupsMap) (h : Message) (ais : List Message)
    (rest : List (Message × List Message)) :
    runTurns g ((h, ais) :: rest) =
      ((finalizeTurn g h ais).1 ++ (runTurns (finalizeTurn g h ais).2 rest).1,
       (runTurns (finalizeTurn g h ais).2 rest).2) := rfl

theorem runTurns_mapGet (hid : Option String) :
    ∀ (ts : List (Message × List Message)) (g : GroupsMap),
    (∀ t ∈ ts, (t.1.id == hid) = false) →
    mapGet (runTurns g ts).2 hid = mapGet g hid := by
  intro ts
  induction ts with
  | nil => intro g _; rfl
  | cons t rest ih =>
    intro g hh
    obtain ⟨th, ta⟩ := t
    rw [runTurns_cons]
    have h2 := ih (finalizeTurn g th ta).2
      (fun t2 ht2 => hh t2 (by simp [ht2]))
    simp only [h2]
    exact finalizeTurn_mapGet_ne g th ta hid (hh (th, ta) (by simp))

theorem processTurns_nil (pv : List (Option String)) (sv : List Message)
    (us : Bool) (g : GroupsMap) : processTurns pv sv us g [] = ([], g) := rfl

theorem processTurns_single (pv : List (Option String)) (sv : List Message)
    (us : Bool) (g : GroupsMap) (h : Message) (ais : List Message) :
    processTurns pv sv us g [(h, ais)] =
      finalizeTurn g h (activeAis pv sv us ais) := rfl

theorem processTurns_cons_ne (pv : List (Option String)) (sv : List Message)
    (us : Bool) (g : GroupsMap) (h : Message) (ais : List Message)
    (r : Message × List Message) (rs : List (Message × List Message)) :
    processTurns pv sv us g ((h, ais) :: r :: rs) =
      ((finalizeTurn g h ais).1 ++
        (processTurns pv sv us (finalizeTurn g h ais).2 (r :: rs)).1,
       (processTurns pv sv us (finalizeTurn g h ais).2 (r :: rs)).2) := rfl

theorem processTurns_concat (pv : List (Option String)) (sv : List Message)
    (us : Bool) : ∀ (ts : List (Message × List Message)) (g : GroupsMap)
    (h : Message) (a : List Message),
    processTurns pv sv us g (ts ++ [(h, a)]) =
      ((runTurns g ts).1 ++
        (finalizeTurn (runTurns g ts).2 h (activeAis pv sv us a)).1,
       (finalizeTurn (runTurns g ts).2 h (activeAis pv sv us a)).2) := by
  intro ts
  induction ts with
  | nil =>
    intro g h a
    rw [List.nil_append, processTurns_single]
    rfl
  | cons t rest ih =>
    intro g h a
    obtain ⟨th, ta⟩ := t
    cases hr : rest ++ [(h, a)] with
    | nil => exact absurd hr (by simp)
    | cons r rs =>
      rw [List.cons_append, hr, processTurns_cons_ne, ← hr, ih, runTurns_cons]
      simp [List.append_assoc]

theorem processTurns_prov (P : Message → Prop) (pv : List (Option String))
    (sv : List Message) (us : Bool) :
    ∀ (ts : List (Message × List Message)) (g : GroupsMap),
    (∀ q ∈ g, ∀ m ∈ q.2, P m) →
    (∀ t ∈ ts, P t.1 ∧ ∀ m ∈ t.2, P m) →
    (∀ m ∈ sv, P m) →
    (∀ m ∈ (processTurns pv sv us g ts).1, P m)
      ∧ (∀ q ∈ (processTurns pv sv us g ts).2, ∀ m ∈ q.2, P m) := by
  intro ts
  induction ts with
  | nil =>
    intro g hg _ _
    exact ⟨by simp [processTurns_nil], by simpa [processTurns_nil] using hg⟩
  | cons t rest ih =>
    intro g hg hts hsv
    obtain ⟨th, ta⟩ := t
    cases rest with
    | nil =>
      rw [processTurns_single]
      apply finalizeTurn_prov P g th _ hg (hts (th, ta) (by simp)).1
      intro m hm
      unfold activeAis at hm
      by_cases hus : us = true
      · rw [if_pos hus] at hm
        exact hsv m (List.mem_of_mem_filter hm)
      · rw [if_neg hus] at hm
        exact (hts (th, ta) (by simp)).2 m hm
    | cons r rs =>
      rw [processTurns_cons_ne]
      have hf := finalizeTurn_prov P g th ta hg (hts (th, ta) (by simp)).1
        (hts (th, ta) (by simp)).2
      have hrest := ih (finalizeTurn g th ta).2 hf.2
        (fun t2 ht2 => hts t2 (by simp [ht2])) hsv
      constructor
      · intro m hm
        rcases List.mem_append.mp hm with hm | hm
        · exact hf.1 m hm
        · exact hrest.1 m hm
      · exact hrest.2

theorem processTurns_countP (x : String) (pv : List (Option String))
    (sv : List Message) (us : Bool) :
    ∀ (ts : List (Message × List Message)) (g : GroupsMap),
    GroupsNoX x g →
    (∀ t ∈ ts, ∀ m ∈ t.2, (m.id == some x) = false) →
    (∀ m ∈ sv, (m.id == some x) = false) →
    (processTurns pv sv us g ts).1.countP (fun m => m.id == some x)
      = (ts.map (fun t => t.1)).countP (fun m => m.id == some x) := by
  intro ts
  induction ts with
  | nil => intro g _ _ _; rfl
  | cons t rest ih =>
    intro g hg hts hsv
    obtain ⟨th, ta⟩ := t
    cases rest with
    | nil =>
      rw [processTurns_single]
      have hais : ∀ m ∈ activeAis pv sv us ta, (m.id == some x) = false := by
        intro m hm
        unfold activeAis at hm
        by_cases hus : us = true
        · rw [if_pos hus] at hm
          exact hsv m (List.mem_of_mem_filter hm)
        · rw [if_neg hus] at hm
          exact hts (th, ta) (by simp) m hm
      rw [(finalizeTurn_countP x g th _ hg hais).1]
      by_cases hh : (th.id == some x) = true
      · simp [List.countP_cons, hh]
      · simp [List.countP_cons, hh]
    | cons r rs =>
      rw [processTurns_cons_ne]
      have hstep := finalizeTurn_countP x g th ta hg (hts (th, ta) (by simp))
      have hrest := ih (finalizeTurn g th ta).2 hstep.2
        (fun t2 ht2 => hts t2 (by simp [ht2])) hsv
      rw [List.countP_append, hstep.1, hrest]
      by_cases hh : (th.id == some x) = true
      · simp [List.countP_cons, hh]
        omega
      · simp [List.countP_cons, hh]

theorem countP_flattenTurns (p : Message → Bool)
    (ts : List (Message × List Message))
    (h : ∀ t ∈ ts, ∀ m ∈ t.2, p m = false) :
    (flattenTurns ts).countP p = (ts.map (fun t => t.1)).countP p := by
  induction ts with
  | nil => rfl
  | cons t rest ih =>
    unfold flattenTurns
    rw [List.countP_cons, List.countP_append,
      countP_zero_of p t.2 (h t (by simp)),
      ih (fun t2 ht2 => h t2 (by simp [ht2]))]
    rw [List.map_cons, List.countP_cons]
    omega

/- ------------------------------------------------------------------ -/
/- Thread-management claims.                                           -/
/- ------------------------------------------------------------------ -/

theorem contains_filter_ne (l : List String) (tid : String) :
    ((l.filter (fun t2 => !(t2 == tid))).contains tid) = false := by
  induction l with
  | nil => rfl
  | cons a t ih =>
    rw [List.filter_cons]
    by_cases ha : (a == tid) = true
    · simp only [ha, Bool.not_true, Bool.false_eq_true, if_false]
      exact ih
    · have ha2 : (a == tid) = false := by
        cases h2 : (a == tid)
        · rfl
        · exact absurd h2 ha
      simp only [ha2, Bool.not_false, if_true]
      rw [List.contains_cons]
      have : (tid == a) = false := by
        cases h2 : (tid == a)
        · rfl
        · exact absurd (by simp [(by simpa using h2 : tid = a)]) ha
      rw [this, ih]
      rfl

theorem marker_cleared (flight : List String) (tid : String) :
    ((flight ++ [tid]).filter (fun t2 => !(t2 == tid))).contains tid
      = false :=
  contains_filter_ne (flight ++ [tid]) tid

/-- C9: each thread-management operation (delete, duplicate, rename) is
raced against a 15000 ms timer; when the timeout wins, the operation is a
failure: the thread list is unchanged (for delete the thread stays in the
list), the in-flight marker for the thread id ends up cleared, and a
timeout-specific toast distinct from the generic failure toast is shown. -/
theorem thread_ops_timeout (threads : List ThreadInfo)
    (flight : List String) (tid : String) (title : String) (th : ThreadInfo)
    (hfree : flight.contains tid = false) (hth : th ∈ threads) :
    (deleteTimeoutMs = 15000 ∧ duplicateTimeoutMs = 15000 ∧
      renameTimeoutMs = 15000)
    ∧ (deleteThread true threads flight tid OpOutcome.timeout).threads
        = threads
    ∧ th ∈ (deleteThread true threads flight tid OpOutcome.timeout).threads
    ∧ (deleteThread true threads flight tid
        OpOutcome.timeout).inFlight.contains tid = false
    ∧ (deleteThread true threads flight tid OpOutcome.timeout).toast
        = some deleteTimeoutToast
    ∧ ¬(deleteTimeoutToast = deleteFailureToast)
    ∧ (duplicateThread true threads flight tid
        DuplicateOutcome.timeout).threads = threads
    ∧ (duplicateThread true threads flight tid
        DuplicateOutcome.timeout).inFlight.contains tid = false
    ∧ (duplicateThread true threads flight tid DuplicateOutcome.timeout).toast
        = some duplicateTimeoutToast
    ∧ ¬(duplicateTimeoutToast = duplicateFailureToast)
    ∧ (renameThread true threads flight tid title
        OpOutcome.timeout).threads = threads
    ∧ (renameThread true threads flight tid title
        OpOutcome.timeout).inFlight.contains tid = false
    ∧ (renameThread true threads flight tid title OpOutcome.timeout).toast
        = some renameTimeoutToast
    ∧ ¬(renameTimeoutToast = renameFailureToast) := by
  have hdel : deleteThread true threads flight tid OpOutcome.timeout =
      ⟨threads, (flight ++ [tid]).filter (fun t2 => !(t2 == tid)),
        some deleteTimeoutToast⟩ := by
    unfold deleteThread
    rw [hfree]
    simp
  have hdup : duplicateThread true threads flight tid
      DuplicateOutcome.timeout =
      ⟨threads, (flight ++ [tid]).filter (fun t2 => !(t2 == tid)),
        some duplicateTimeoutToast⟩ := by
    unfold duplicateThread
    rw [hfree]
    simp
  have hren : renameThread true threads flight tid title
      OpOutcome.timeout =
      ⟨threads, (flight ++ [tid]).filter (fun t2 => !(t2 == tid)),
        some renameTimeoutToast⟩ := by
    unfold renameThread
    rw [hfree]
    simp
  refine ⟨⟨rfl, rfl, rfl⟩, ?_, ?_, ?_, ?_, by decide, ?_, ?_, ?_, by decide,
    ?_, ?_, ?_, by decide⟩
  · rw [hdel]
  · rw [hdel]; exact hth
  · rw [hdel]; exact marker_cleared flight tid
  · rw [hdel]
  · rw [hdup]
  · rw [hdup]; exact marker_cleared flight tid
  · rw [hdup]
  · rw [hren]
  · rw [hren]; exact marker_cleared flight tid
  · rw [hren]

theorem thread_ops_timeout_witness :
    (deleteThread true [exThread] [] "t-perm" OpOutcome.timeout).threads
      = [exThread] :=
  (thread_ops_timeout [exThread] [] "t-perm" "t" exThread (by decide)
    (by decide)).2.1

/-- C10: `getThreads` returns only threads whose `metadata.temporary` is not
`"true"`, while the unfiltered result (temporary threads included) becomes
the `allThreadsCache` that `isCurrentThreadTemporary` consults to classify
the active thread. -/
theorem temporary_thread_filter (allThreads : List ThreadInfo) :
    (∀ t ∈ (getThreads allThreads).1, ¬(t.temporary = some "true"))
    ∧ (getThreads allThreads).2 = allThreads
    ∧ (∀ (tid : String) (th : ThreadInfo), ¬(tid = "") →
        allThreads.find? (fun t => t.threadId == tid) = some th →
        isCurrentThreadTemporary (getThreads allThreads).2 (some tid)
          = (th.temporary == some "true"))
    ∧ isCurrentThreadTemporary (getThreads allThreads).2 none = false := by
  refine ⟨?_, rfl, ?_, rfl⟩
  · intro t ht
    have h2 := List.of_mem_filter ht
    intro hcon
    rw [hcon] at h2
    simp at h2
  · intro tid th htid hfind
    have h2 : (tid == "") = false := by
      cases h3 : (tid == "")
      · rfl
      · exact absurd (by simpa using h3) htid
    show (if (tid == "") = true then false
        else
          match List.find? (fun t => t.threadId == tid)
              (getThreads allThreads).2 with
          | some th2 => th2.temporary == some "true"
          | none => false)
      = (th.temporary == some "true")
    rw [h2]
    simp only [Bool.false_eq_true, if_false]
    have h3 : (getThreads allThreads).2 = allThreads := rfl
    rw [h3, hfind]

theorem temporary_thread_filter_witness :
    isCurrentThreadTemporary (getThreads [exThread, exTempThread]).2
      (some "t-temp") = (exTempThread.temporary == some "true") :=
  (temporary_thread_filter [exThread, exTempThread]).2.2.1 "t-temp"
    exTempThread (by decide) (by decide)

/- ------------------------------------------------------------------ -/
/- Reconciler claims: partition, final-is-last, unmergeable messages.  -/
/- ------------------------------------------------------------------ -/

/-- C2: the reconciler's scan partitions the base sequence exactly: orphaned
ai/tool messages before any human message come first and are emitted directly
at the head of `finalMessages`; every other ai/tool message belongs to
exactly one turn, the turn of the nearest preceding human message (each turn
is headed by its human message and contains no further human). -/
theorem turn_partition (msgs : List Message) (streamed : Accum)
    (isLoading : Bool) (cache : GroupsMap) (optimistic : Option Message) :
    (orphansAndTurns (baseOf msgs optimistic)).1 ++
        flattenTurns (orphansAndTurns (baseOf msgs optimistic)).2
      = baseOf msgs optimistic
    ∧ (∀ m ∈ (orphansAndTurns (baseOf msgs optimistic)).1,
        ¬(m.type = MsgType.human))
    ∧ (∀ t ∈ (orphansAndTurns (baseOf msgs optimistic)).2,
        t.1.type = MsgType.human ∧ ∀ m ∈ t.2, ¬(m.type = MsgType.human))
    ∧ ∃ rest, (reconcile msgs streamed isLoading cache optimistic).messages
        = (orphansAndTurns (baseOf msgs optimistic)).1 ++ rest :=
  ⟨orphansAndTurns_flatten _, (orphansAndTurns_wf _).1,
    (orphansAndTurns_wf _).2, ⟨_, rfl⟩⟩

theorem find?_values_eq_mapGet (M : Accum) (hwf : AccumWF M) (k : String) :
    (mapValues M).find? (fun m => m.id == some k) = mapGet M k := by
  induction M with
  | nil => rfl
  | cons q t ih =>
    have hq := hwf.2 q (by simp)
    have hwt : AccumWF t := by
      constructor
      · have h2 : (q.1 :: mapKeys t).Nodup := hwf.1
        exact (List.nodup_cons.mp h2).2
      · intro r hr
        exact hwf.2 r (by simp [hr])
    by_cases hk : (q.1 == k) = true
    · have h1 : (mapValues (q :: t)).find? (fun m => m.id == some k)
          = some q.2 := by
        apply find?_cons_pos
        rw [hq.1]
        simpa using hk
      have h2 : mapGet (q :: t) k = some q.2 := by
        unfold mapGet
        rw [find?_cons_pos (fun p => p.1 == k) q t hk]
        rfl
      rw [h1, h2]
    · have hk2 : (q.2.id == some k) = false := by
        rw [hq.1]
        simpa using hk
      have h1 : (mapValues (q :: t)).find? (fun m => m.id == some k)
          = (mapValues t).find? (fun m => m.id == some k) :=
        find?_cons_neg _ q.2 _ hk2
      have h2 : mapGet (q :: t) k = mapGet t k := by
        unfold mapGet
        rw [find?_cons_neg (fun p => p.1 == k) q t (by
          cases h3 : (q.1 == k)
          · exact h3
          · exact absurd h3 hk)]
      rw [h1, h2]
      exact ih hwt

/-- C3: for a non-empty turn, `finalizeTurn` appends after the human exactly
the last element of the merged list (persisted intermediates first, then the
live candidates, deduplicated by id) and stores all earlier elements as the
turn's intermediate group; when an id occurs among the live candidates, the
merged entry for it is the last live message with that id (the live content
wins over the persisted one). -/
theorem final_is_last (groups : GroupsMap) (h : Message)
    (ais : List Message) :
    (∀ f, (mergeById ((mapGet groups h.id).getD []) ais).getLast? = some f →
      (finalizeTurn groups h ais).1 = [h, f]
      ∧ mapGet (finalizeTurn groups h ais).2 h.id
          = some (mergeById ((mapGet groups h.id).getD []) ais).dropLast)
    ∧ (∀ (k : String) (cand : Message), cand ∈ ais → cand.id = some k →
        ¬(k = "") →
        (mergeById ((mapGet groups h.id).getD []) ais).find?
            (fun m => m.id == some k)
          = (ais.filter (fun m => m.id == some k)).getLast?) := by
  constructor
  · intro f hf
    rw [finalizeTurn_eq, hf]
    exact ⟨rfl, mapGet_set_self groups h.id _⟩
  · intro k cand hcand hid hk
    have hpred : ∀ m ∈ ais,
        (idTruthy m.id && (idKey m.id == k)) = (m.id == some k) := by
      intro m _
      cases hm : m.id with
      | none => simp [idTruthy]
      | some s =>
        by_cases hsk : s = k
        · subst hsk
          simp [idTruthy, idKey, hk]
        · simp [idTruthy, idKey, hsk]
    have hfeq : ais.filter (fun m2 => idTruthy m2.id && (idKey m2.id == k))
        = ais.filter (fun m2 => m2.id == some k) := List.filter_congr hpred
    have hne : ¬(ais.filter (fun m => m.id == some k) = []) := by
      intro hcon
      have h2 : cand ∈ ais.filter (fun m => m.id == some k) :=
        List.mem_filter.mpr ⟨hcand, by simp [hid]⟩
      rw [hcon] at h2
      cases h2
    obtain ⟨w, hw⟩ : ∃ w,
        (ais.filter (fun m => m.id == some k)).getLast? = some w := by
      cases hl : ais.filter (fun m => m.id == some k) with
      | nil => exact absurd hl hne
      | cons b bs =>
        exact ⟨(b :: bs).getLast (by simp),
          List.getLast?_eq_getLast _ (by simp)⟩
    have hwfnil : AccumWF ([] : Accum) :=
      ⟨List.nodup_nil, by intro q hq; cases hq⟩
    have hwfM : AccumWF (ais.foldl (insertIf (fun m2 => idTruthy m2.id))
        (((mapGet groups h.id).getD []).foldl
          (insertIf (fun m2 => idTruthy m2.id)) [])) :=
      AccumWF_foldl_insertIf _ (fun m2 h2 => h2) ais _
        (AccumWF_foldl_insertIf _ (fun m2 h2 => h2) _ [] hwfnil)
    have h1 : (mergeById ((mapGet groups h.id).getD []) ais).find?
        (fun m => m.id == some k)
        = mapGet (ais.foldl (insertIf (fun m2 => idTruthy m2.id))
          (((mapGet groups h.id).getD []).foldl
            (insertIf (fun m2 => idTruthy m2.id)) [])) k :=
      find?_values_eq_mapGet _ hwfM k
    rw [h1, mapGet_foldl_insertIf, hfeq, hw]
    rfl

theorem final_is_last_witness :
    (finalizeTurn [(some "h", [msgA])] msgH [msgB]).1 = [msgH, msgB] :=
  ((final_is_last [(some "h", [msgA])] msgH [msgB]).1 msgB (by decide)).1

/-- C5 counterexample: an assistant message without an id inside a turn is
not appended to the turn's output (it is silently dropped by the merge),
contradicting the claim that such messages are always appended. -/
theorem unmergeable_counterexample :
    (reconcile [msgH, msgNoId] [] false [] none).messages = [msgH]
    ∧ ¬(msgNoId ∈ (reconcile [msgH, msgNoId] [] false [] none).messages)
    ∧ ∀ q ∈ (reconcile [msgH, msgNoId] [] false [] none).intermediateGroups,
        ¬(msgNoId ∈ q.2) := by decide

theorem mergeById_truthy (persisted ais : List Message) :
    ∀ m ∈ mergeById persisted ais, idTruthy m.id = true := by
  intro m hm
  unfold mergeById at hm
  rw [mergeInsert_eq] at hm
  rcases mem_mapValues.mp hm with ⟨q, hq, hq2⟩
  rcases mem_foldl_insertIf _ _ _ q hq with h2 | ⟨_, h3, _⟩
  · rcases mem_foldl_insertIf _ _ _ q h2 with h3 | ⟨_, h4, _⟩
    · cases h3
    · exact hq2 ▸ h4
  · exact hq2 ▸ h3

/-- C5 (amended): assistant/tool messages lacking a (truthy) id inside a
turn are silently dropped by the dedup merge: the turn's merged list, its
final message and its intermediate group contain only messages with truthy
ids, and removing an id-less message from the live candidates does not
change the merge at all (it is never deduplicated against anything either).
Only the human message itself may lack an id in the turn's output. -/
theorem unmergeable_dropped (groups : GroupsMap) (h : Message)
    (ais : List Message) :
    (∀ m ∈ mergeById ((mapGet groups h.id).getD []) ais,
      idTruthy m.id = true)
    ∧ (∀ m ∈ (finalizeTurn groups h ais).1, m = h ∨ idTruthy m.id = true)
    ∧ (∀ (persisted a1 a2 : List Message) (m : Message),
        idTruthy m.id = false →
        mergeById persisted (a1 ++ m :: a2)
          = mergeById persisted (a1 ++ a2)) := by
  refine ⟨mergeById_truthy _ _, ?_, ?_⟩
  · intro m hm
    rw [finalizeTurn_eq] at hm
    cases hlast : (mergeById ((mapGet groups h.id).getD []) ais).getLast? with
    | none =>
      rw [hlast] at hm
      have h2 : m = h := by simpa using hm
      exact Or.inl h2
    | some f =>
      rw [hlast] at hm
      have h2 : m = h ∨ m = f := by simpa using hm
      rcases h2 with rfl | rfl
      · exact Or.inl rfl
      · exact Or.inr (mergeById_truthy _ _ m (getLast?_mem_list hlast))
  · intro persisted a1 a2 m hm
    unfold mergeById
    rw [List.foldl_append, List.foldl_append, List.foldl_cons]
    have h2 : mergeInsert
        (a1.foldl mergeInsert (persisted.foldl mergeInsert [])) m
        = a1.foldl mergeInsert (persisted.foldl mergeInsert []) := by
      unfold mergeInsert insertIf
      simp [hm]
    rw [h2]

theorem unmergeable_dropped_witness :
    mergeById [] ([msgA] ++ msgNoId :: [msgB])
      = mergeById [] ([msgA] ++ [msgB]) :=
  (unmergeable_dropped [] msgH []).2.2 [] [msgA] [msgB] msgNoId (by decide)

/- ------------------------------------------------------------------ -/
/- Reconciler reduction and reset isolation.                           -/
/- ------------------------------------------------------------------ -/

theorem reconcile_eq (msgs : List Message) (streamed : Accum)
    (isLoading : Bool) (cache : GroupsMap) (optimistic : Option Message) :
    reconcile msgs streamed isLoading cache optimistic =
      ⟨(orphansAndTurns (baseOf msgs optimistic)).1 ++
        (processTurns
          ((beforeLastHuman (baseOf msgs optimistic)).map (fun m => m.id))
          (mapValues streamed) (!streamed.isEmpty)
          (presetGroups cache (baseOf msgs optimistic) streamed isLoading)
          (orphansAndTurns (baseOf msgs optimistic)).2).1,
       (processTurns
          ((beforeLastHuman (baseOf msgs optimistic)).map (fun m => m.id))
          (mapValues streamed) (!streamed.isEmpty)
          (presetGroups cache (baseOf msgs optimistic) streamed isLoading)
          (orphansAndTurns (baseOf msgs optimistic)).2).2⟩ := rfl

theorem presetGroups_empty (cache : GroupsMap) (base : List Message)
    (isLoading : Bool) : presetGroups cache base [] isLoading = cache := by
  unfold presetGroups
  cases hs : splitAtLastHuman base with
  | none => rfl
  | some p =>
    obtain ⟨b, h, a⟩ := p
    simp

/-- C8: switching the active thread resets the accumulator, the persistence
cache and the optimistic placeholder in full, and a reconciliation performed
on the reset state produces only messages of the new thread's Message Store
sequence (none leaked from the previous thread's state). -/
theorem reset_isolation (msgs : List Message) (isLoading : Bool) :
    setThreadIdReset.streamed = [] ∧ setThreadIdReset.cache = []
    ∧ setThreadIdReset.optimistic = none
    ∧ (∀ m ∈ (reconcile msgs setThreadIdReset.streamed isLoading
        setThreadIdReset.cache setThreadIdReset.optimistic).messages,
        m ∈ msgs)
    ∧ (∀ q ∈ (reconcile msgs setThreadIdReset.streamed isLoading
        setThreadIdReset.cache
        setThreadIdReset.optimistic).intermediateGroups,
        ∀ m ∈ q.2, m ∈ msgs) := by
  have hbase : ∀ m ∈ baseOf msgs (none : Option Message), m ∈ msgs := by
    intro m hm
    simpa [baseOf] using hm
  have hg1 : presetGroups [] (baseOf msgs none) [] isLoading = [] :=
    presetGroups_empty _ _ _
  have hprov := processTurns_prov (fun m => m ∈ msgs)
    ((beforeLastHuman (baseOf msgs none)).map (fun m => m.id))
    (mapValues ([] : Accum)) (!([] : Accum).isEmpty)
    (orphansAndTurns (baseOf msgs none)).2
    (presetGroups [] (baseOf msgs none) [] isLoading)
    (by rw [hg1]; intro q hq; cases hq)
    (fun t ht => ⟨hbase _ (turns_subset _ t ht).1,
      fun m hm => hbase _ ((turns_subset _ t ht).2 m hm)⟩)
    (by intro m hm; cases hm)
  refine ⟨rfl, rfl, rfl, ?_, ?_⟩
  · intro m hm
    rw [reconcile_eq] at hm
    rcases List.mem_append.mp hm with hm | hm
    · exact hbase m (orphans_subset _ m hm)
    · exact hprov.1 m hm
  · intro q hq
    rw [reconcile_eq] at hq
    exact hprov.2 q hq

theorem reset_isolation_witness :
    msgA1 ∈ [msgH, msgA1] :=
  (reset_isolation [msgH, msgA1] false).2.2.2.1 msgA1 (by decide)

/- ------------------------------------------------------------------ -/
/- Streaming accumulator claim.                                        -/
/- ------------------------------------------------------------------ -/

theorem afterLastHuman_nohuman (msgs : List Message) :
    ∀ m ∈ afterLastHuman msgs, ¬(m.type = MsgType.human) := by
  unfold afterLastHuman
  cases hs : splitAtLastHuman msgs with
  | none => exact splitAtLastHuman_none msgs hs
  | some p =>
    obtain ⟨b, h, a⟩ := p
    exact (splitAtLastHuman_spec msgs b h a hs).2.2

theorem nonhuman_ai_or_tool (m : Message) (h : ¬(m.type = MsgType.human)) :
    (m.type == MsgType.ai || m.type == MsgType.tool) = true := by
  cases h3 : m.type
  · exact absurd h3 h
  · simp
  · simp

/-- C6 counterexample: with streaming active but an optimistic placeholder
pending whose id differs from the store's most recent human message, the
capture effect records nothing: the qualifying assistant message after the
last human message is not recorded into the accumulator, contradicting the
unconditional recording contract. -/
theorem accumulator_capture_counterexample :
    msgA ∈ afterLastHuman [msgH, msgA]
    ∧ captureQualifies msgA = true
    ∧ captureStreamedMessages [] [msgH, msgA] (some msgOpt) true = []
    ∧ mapGet (captureStreamedMessages [] [msgH, msgA] (some msgOpt) true)
        (idKey msgA.id) = none := by decide

/-- C6 (amended): while streaming is active and no optimistic placeholder is
pending whose id differs from the store's most recent human message, every
assistant/tool message with a truthy id positioned after the most recent
human message is recorded in the accumulator under its id; the stored value
is the latest such message of the notification (a later notification with
the same id overwrites the content), and pre-existing entries keep their
insertion position (the key list only grows at its end). -/
theorem accumulator_capture (streamed : Accum) (msgs : List Message)
    (optimistic : Option Message)
    (hguard : ∀ om, optimistic = some om →
      (lastHumanId msgs == om.id) = true) :
    (∀ m ∈ afterLastHuman msgs, captureQualifies m = true →
      mapGet (captureStreamedMessages streamed msgs optimistic true)
          (idKey m.id)
        = ((afterLastHuman msgs).filter
            (fun m2 => m2.id == m.id)).getLast?)
    ∧ ∃ fresh,
        mapKeys (captureStreamedMessages streamed msgs optimistic true)
          = mapKeys streamed ++ fresh := by
  have hcap : captureStreamedMessages streamed msgs optimistic true
      = recordAll streamed (afterLastHuman msgs) := by
    unfold captureStreamedMessages
    cases optimistic with
    | none => rfl
    | some om =>
      show (if (!(lastHumanId msgs == om.id)) = true then streamed
        else recordAll streamed (afterLastHuman msgs))
        = recordAll streamed (afterLastHuman msgs)
      rw [hguard om rfl]
      rfl
  constructor
  · intro m hm hq
    have htr : idTruthy m.id = true := by
      have h2 : idTruthy m.id = true ∧
          (m.type == MsgType.ai || m.type == MsgType.tool) = true := by
        simpa [captureQualifies] using hq
      exact h2.1
    obtain ⟨s, hs1, hs2⟩ : ∃ s, m.id = some s ∧ ¬(s = "") := by
      cases hmi : m.id with
      | none => rw [hmi] at htr; cases htr
      | some s =>
        refine ⟨s, rfl, ?_⟩
        rw [hmi] at htr
        simpa [idTruthy] using htr
    have hpred : ∀ m2 ∈ afterLastHuman msgs,
        (captureQualifies m2 && (idKey m2.id == idKey m.id))
          = (m2.id == m.id) := by
      intro m2 hm2
      have ht2 := nonhuman_ai_or_tool m2 (afterLastHuman_nohuman msgs m2 hm2)
      rw [hs1]
      cases hmi2 : m2.id with
      | none => simp [captureQualifies, idTruthy, hmi2]
      | some s2 =>
        by_cases hss : s2 = s
        · subst hss
          simp [captureQualifies, idTruthy, idKey, hmi2, hs2, ht2]
        · simp [captureQualifies, idTruthy, idKey, hmi2, hss]
    have hfeq : (afterLastHuman msgs).filter
        (fun m2 => captureQualifies m2 && (idKey m2.id == idKey m.id))
        = (afterLastHuman msgs).filter (fun m2 => m2.id == m.id) :=
      List.filter_congr hpred
    have hne : ¬((afterLastHuman msgs).filter
        (fun m2 => m2.id == m.id) = []) := by
      intro hcon
      have h2 : m ∈ (afterLastHuman msgs).filter
          (fun m2 => m2.id == m.id) :=
        List.mem_filter.mpr ⟨hm, by simp⟩
      rw [hcon] at h2
      cases h2
    obtain ⟨w, hw⟩ : ∃ w, ((afterLastHuman msgs).filter
        (fun m2 => m2.id == m.id)).getLast? = some w := by
      cases hl : (afterLastHuman msgs).filter (fun m2 => m2.id == m.id) with
      | nil => exact absurd hl hne
      | cons b bs =>
        exact ⟨(b :: bs).getLast (by simp),
          List.getLast?_eq_getLast _ (by simp)⟩
    rw [hcap]
    unfold recordAll
    rw [mapGet_foldl_insertIf, hfeq, hw]
    rfl
  · rw [hcap]
    unfold recordAll
    exact mapKeys_foldl_insertIf _ _ streamed

theorem accumulator_capture_witness :
    mapGet (captureStreamedMessages [] [msgH, msgA] none true)
        (idKey msgA.id)
      = ((afterLastHuman [msgH, msgA]).filter
          (fun m2 => m2.id == msgA.id)).getLast? :=
  (accumulator_capture [] [msgH, msgA] none
    (by intro om h; cases h)).1 msgA (by decide) (by decide)

/- ------------------------------------------------------------------ -/
/- Persistence at stream end.                                          -/
/- ------------------------------------------------------------------ -/

theorem idTruthy_some (o : Option String) (h : idTruthy o = true) :
    o = some (idKey o) ∧ ¬(idKey o = "") := by
  cases o with
  | none => cases h
  | some s => exact ⟨rfl, by simpa [idTruthy] using h⟩

theorem reconcile_groups (msgs : List Message) (streamed : Accum)
    (isLoading : Bool) (cache : GroupsMap) (optimistic : Option Message) :
    (reconcile msgs streamed isLoading cache optimistic).intermediateGroups =
      (processTurns
        ((beforeLastHuman (baseOf msgs optimistic)).map (fun m => m.id))
        (mapValues streamed) (!streamed.isEmpty)
        (presetGroups cache (baseOf msgs optimistic) streamed isLoading)
        (orphansAndTurns (baseOf msgs optimistic)).2).2 := rfl

theorem reconcile_messages (msgs : List Message) (streamed : Accum)
    (isLoading : Bool) (cache : GroupsMap) (optimistic : Option Message) :
    (reconcile msgs streamed isLoading cache optimistic).messages =
      (orphansAndTurns (baseOf msgs optimistic)).1 ++
      (processTurns
        ((beforeLastHuman (baseOf msgs optimistic)).map (fun m => m.id))
        (mapValues streamed) (!streamed.isEmpty)
        (presetGroups cache (baseOf msgs optimistic) streamed isLoading)
        (orphansAndTurns (baseOf msgs optimistic)).2).1 := rfl

theorem mergeById_append_fresh (inter : List Message) (F : Message)
    (htr : ∀ m ∈ inter, idTruthy m.id = true)
    (hnd : (inter.map (fun m => idKey m.id)).Nodup)
    (hF : idTruthy F.id = true)
    (hFne : ¬(idKey F.id ∈ inter.map (fun m => idKey m.id))) :
    mergeById inter [F] = inter ++ [F] := by
  unfold mergeById
  rw [mergeInsert_eq]
  rw [foldl_insertIf_fresh _ inter [] htr hnd
    (by intro m _ hk; simp [mapKeys] at hk)]
  rw [List.nil_append, List.foldl_cons, List.foldl_nil]
  unfold insertIf
  rw [if_pos hF]
  have hany : ((inter.map (fun m => (idKey m.id, m))).any
      (fun p => p.1 == idKey F.id)) = false := by
    cases hc : ((inter.map (fun m => (idKey m.id, m))).any
        (fun p => p.1 == idKey F.id)) with
    | false => rfl
    | true =>
      exfalso
      rcases List.any_eq_true.mp hc with ⟨p, hp, hpk⟩
      rcases List.mem_map.mp hp with ⟨m, hmm, hmp⟩
      apply hFne
      have h2 : idKey m.id = idKey F.id := by
        rw [← hmp] at hpk
        simpa using hpk
      exact h2 ▸ List.mem_map.mpr ⟨m, hmm, rfl⟩
  unfold mapSet
  rw [hany]
  simp only [Bool.false_eq_true, if_false, mapValues, List.map_append,
    List.map_map, List.map_cons, List.map_nil]
  conv_rhs => rw [← List.map_id inter]
  apply congrArg (fun l => l ++ [F])
  apply List.map_congr_left
  intro m _
  rfl

/-- C4: when the streaming-active flag is false and the accumulator is
non-empty, exactly the accumulator entries whose ids are not among the
Message Store's currently visible ids are stored in the persistence cache
under the id of the most recent human message, and the accumulator is
cleared (when all entries are still visible the cache is untouched);
afterwards the reconciler still reports those entries as the turn's
intermediate group even when the store shows only the human message and the
final answer; and when the store holds no human message, nothing is
persisted and no error occurs (the accumulator is still cleared). -/
theorem persistence_at_stream_end (cache : GroupsMap) (streamed : Accum)
    (msgs : List Message) (b : List Message) (h : Message)
    (a : List Message)
    (hsplit : splitAtLastHuman msgs = some (b, h, a))
    (hid : idTruthy h.id = true)
    (hne : ¬(streamed = []))
    (hwf : AccumWF streamed) :
    ((persistStep cache streamed msgs false).2 = [])
    ∧ (¬((mapValues streamed).filter (fun m =>
          !((msgs.map (fun m2 => m2.id)).contains m.id)) = []) →
        mapGet (persistStep cache streamed msgs false).1 h.id
          = some ((mapValues streamed).filter (fun m =>
              !((msgs.map (fun m2 => m2.id)).contains m.id))))
    ∧ (((mapValues streamed).filter (fun m =>
          !((msgs.map (fun m2 => m2.id)).contains m.id)) = []) →
        (persistStep cache streamed msgs false).1 = cache)
    ∧ (∀ F : Message,
        ¬((mapValues streamed).filter (fun m =>
          !((msgs.map (fun m2 => m2.id)).contains m.id)) = []) →
        ¬(F.type = MsgType.human) → idTruthy F.id = true →
        (∀ m ∈ (mapValues streamed).filter (fun m =>
          !((msgs.map (fun m2 => m2.id)).contains m.id)),
          (m.id == F.id) = false) →
        mapGet (reconcile [h, F] [] false
            (persistStep cache streamed msgs false).1
            none).intermediateGroups h.id
          = some ((mapValues streamed).filter (fun m =>
              !((msgs.map (fun m2 => m2.id)).contains m.id))))
    ∧ (∀ msgs2, splitAtLastHuman msgs2 = none →
        persistStep cache streamed msgs2 false = (cache, [])) := by
  have hie : streamed.isEmpty = false := by
    cases streamed
    · exact absurd rfl hne
    · rfl
  have hstep : persistStep cache streamed msgs false =
      (if !((mapValues streamed).filter (fun m =>
          !((msgs.map (fun m2 => m2.id)).contains m.id))).isEmpty
        then mapSet cache h.id ((mapValues streamed).filter (fun m =>
          !((msgs.map (fun m2 => m2.id)).contains m.id)))
        else cache, []) := by
    unfold persistStep
    simp [hsplit, hid, hie]
  have hcl : (persistStep cache streamed msgs false).2 = [] := by
    rw [hstep]
  have hpos : ¬((mapValues streamed).filter (fun m =>
      !((msgs.map (fun m2 => m2.id)).contains m.id)) = []) →
      (persistStep cache streamed msgs false).1
        = mapSet cache h.id ((mapValues streamed).filter (fun m =>
            !((msgs.map (fun m2 => m2.id)).contains m.id))) := by
    intro hni
    have hie2 : ((mapValues streamed).filter (fun m =>
        !((msgs.map (fun m2 => m2.id)).contains m.id))).isEmpty = false := by
      cases hcc : (mapValues streamed).filter (fun m =>
          !((msgs.map (fun m2 => m2.id)).contains m.id)) with
      | nil => exact absurd hcc hni
      | cons x xs => rfl
    rw [hstep]
    show (if !((mapValues streamed).filter (fun m =>
        !((msgs.map (fun m2 => m2.id)).contains m.id))).isEmpty
      then mapSet cache h.id ((mapValues streamed).filter (fun m =>
        !((msgs.map (fun m2 => m2.id)).contains m.id)))
      else cache)
      = mapSet cache h.id ((mapValues streamed).filter (fun m =>
          !((msgs.map (fun m2 => m2.id)).contains m.id)))
    rw [hie2]
    rfl
  refine ⟨hcl, ?_, ?_, ?_, ?_⟩
  · intro hni
    rw [hpos hni]
    exact mapGet_set_self cache h.id _
  · intro hisnil
    have hie2 : ((mapValues streamed).filter (fun m =>
        !((msgs.map (fun m2 => m2.id)).contains m.id))).isEmpty = true := by
      rw [hisnil]
      rfl
    rw [hstep]
    show (if !((mapValues streamed).filter (fun m =>
        !((msgs.map (fun m2 => m2.id)).contains m.id))).isEmpty
      then mapSet cache h.id ((mapValues streamed).filter (fun m =>
        !((msgs.map (fun m2 => m2.id)).contains m.id)))
      else cache) = cache
    rw [hie2]
    rfl
  · intro F hni hF htrF hFinter
    have hcache2 : mapGet (persistStep cache streamed msgs false).1 h.id
        = some ((mapValues streamed).filter (fun m =>
            !((msgs.map (fun m2 => m2.id)).contains m.id))) := by
      rw [hpos hni]
      exact mapGet_set_self cache h.id _
    have htrI : ∀ m ∈ (mapValues streamed).filter (fun m =>
        !((msgs.map (fun m2 => m2.id)).contains m.id)),
        idTruthy m.id = true :=
      fun m hm => AccumWF_values_truthy streamed hwf m
        (List.mem_of_mem_filter hm)
    have hndI : (((mapValues streamed).filter (fun m =>
        !((msgs.map (fun m2 => m2.id)).contains m.id))).map
          (fun m => idKey m.id)).Nodup := by
      have hsl := (List.filter_sublist (l := mapValues streamed)
        (p := fun m => !((msgs.map (fun m2 => m2.id)).contains m.id)))
      have h2 := (hsl.map (fun m => idKey m.id)).nodup
      apply h2
      rw [AccumWF_values_keys streamed hwf]
      exact hwf.1
    have hfresh : ¬(idKey F.id ∈ ((mapValues streamed).filter (fun m =>
        !((msgs.map (fun m2 => m2.id)).contains m.id))).map
          (fun m => idKey m.id)) := by
      intro hcon
      rcases List.mem_map.mp hcon with ⟨m, hmI, hkeq⟩
      have hm1 := (idTruthy_some m.id (htrI m hmI)).1
      have hf1 := (idTruthy_some F.id htrF).1
      have h3 : (m.id == F.id) = true := by
        rw [hm1, hf1, hkeq]
        simp
      rw [hFinter m hmI] at h3
      cases h3
    have hmerge := mergeById_append_fresh _ F htrI hndI htrF hfresh
    have hhh : h.type = MsgType.human :=
      (splitAtLastHuman_spec msgs b h a hsplit).2.1
    have hFnone : splitAtLastHuman [F] = none :=
      splitAtLastHuman_none_of [F] (by
        intro m hm
        have h2 : m = F := by simpa using hm
        rw [h2]
        exact hF)
    have hb2 : baseOf [h, F] none = [h, F] := by simp [baseOf]
    have hot : orphansAndTurns [h, F] = ([], [(h, [F])]) := by
      show (if h.type = MsgType.human then ([], turnsGo h [] [F])
        else (h :: (orphansAndTurns [F]).1, (orphansAndTurns [F]).2))
        = ([], [(h, [F])])
      rw [if_pos hhh, turnsGo_nohuman [F] (by
        intro m hm
        have h2 : m = F := by simpa using hm
        rw [h2]
        exact hF) h []]
      rfl
    have hot2 : (orphansAndTurns (baseOf [h, F] none)).2 = [(h, [F])] := by
      rw [hb2, hot]
    rw [reconcile_groups, presetGroups_empty, hot2, processTurns_single]
    have hact : activeAis
        ((beforeLastHuman (baseOf [h, F] none)).map (fun m => m.id))
        (mapValues ([] : Accum)) (!([] : Accum).isEmpty) [F] = [F] := rfl
    rw [hact, finalizeTurn_eq, hcache2]
    simp only [Option.getD_some]
    rw [hmerge]
    have hgl : (((mapValues streamed).filter (fun m =>
        !((msgs.map (fun m2 => m2.id)).contains m.id))) ++ [F]).getLast?
        = some F := by simp
    rw [hgl]
    show mapGet (mapSet (persistStep cache streamed msgs false).1 h.id
        ((((mapValues streamed).filter (fun m =>
          !((msgs.map (fun m2 => m2.id)).contains m.id))) ++ [F]).dropLast))
        h.id
      = some ((mapValues streamed).filter (fun m =>
          !((msgs.map (fun m2 => m2.id)).contains m.id)))
    have hdl : ((((mapValues streamed).filter (fun m =>
        !((msgs.map (fun m2 => m2.id)).contains m.id))) ++ [F]).dropLast)
        = (mapValues streamed).filter (fun m =>
          !((msgs.map (fun m2 => m2.id)).contains m.id)) := by simp
    rw [hdl]
    exact mapGet_set_self _ _ _
  · intro msgs2 hs2
    unfold persistStep
    simp [hs2, hie]

theorem persistence_at_stream_end_witness :
    mapGet (persistStep [] [("t1", msgT1), ("a1", msgA1)] [msgH, msgA1]
      false).1 msgH.id
      = some ((mapValues [("t1", msgT1), ("a1", msgA1)]).filter (fun m =>
          !(([msgH, msgA1].map (fun m2 => m2.id)).contains m.id))) :=
  (persistence_at_stream_end [] [("t1", msgT1), ("a1", msgA1)] [msgH, msgA1]
    [] msgH [msgA1] (by decide) (by decide) (by decide)
    (by decide)).2.1 (by decide)

/- ------------------------------------------------------------------ -/
/- Optimistic convergence.                                             -/
/- ------------------------------------------------------------------ -/

/-- C7: once the Message Store's sequence contains the (unique, human)
message with the optimistic placeholder's id `x`, the reconciler's
`finalMessages` contains exactly one message with id `x`: the placeholder is
not appended alongside the authoritative copy (the hypotheses say `x` is a
fresh local id: no accumulator entry or cached intermediate carries it). -/
theorem optimistic_convergence (msgs : List Message) (streamed : Accum)
    (cache : GroupsMap) (isLoading : Bool) (om : Message) (x : String)
    (hx : om.id = some x)
    (hone : (msgs.filter (fun m => m.id == some x)).length = 1)
    (hhum : ∀ m ∈ msgs, m.id = some x → m.type = MsgType.human)
    (hstr : ∀ q ∈ streamed, (q.2.id == some x) = false)
    (hcache : ∀ q ∈ cache, ∀ m ∈ q.2, (m.id == some x) = false) :
    ((reconcile msgs streamed isLoading cache (some om)).messages.filter
      (fun m => m.id == some x)).length = 1 := by
  have hex : ∃ m ∈ msgs, (m.id == some x) = true := by
    rcases hfl : msgs.filter (fun m => m.id == some x) with _ | ⟨y, ys⟩
    · rw [hfl] at hone
      cases hone
    · have h2 : y ∈ msgs.filter (fun m => m.id == some x) := by
        rw [hfl]
        simp
      exact ⟨y, List.mem_of_mem_filter h2, (List.mem_filter.mp h2).2⟩
  have hany2 : msgs.any (fun m => m.id == some x) = true :=
    List.any_eq_true.mpr hex
  have hbase : baseOf msgs (some om) = msgs := by
    show msgs ++ (if msgs.any (fun m => m.id == om.id) then [] else [om])
      = msgs
    rw [hx, hany2]
    simp
  have hgx : GroupsNoX x (presetGroups cache (baseOf msgs (some om))
      streamed isLoading) := by
    unfold presetGroups
    cases hs : splitAtLastHuman (baseOf msgs (some om)) with
    | none => exact hcache
    | some p =>
      obtain ⟨b2, h2, a2⟩ := p
      show GroupsNoX x (if (isLoading || !streamed.isEmpty) = true then
          (if idTruthy h2.id = true then
            (if (!streamed.isEmpty) = true then
              mapSet cache h2.id (mapValues streamed).dropLast
            else cache)
          else cache)
        else cache)
      by_cases hl : (isLoading || !streamed.isEmpty) = true
      · rw [if_pos hl]
        by_cases hth : idTruthy h2.id = true
        · rw [if_pos hth]
          by_cases hse : (!streamed.isEmpty) = true
          · rw [if_pos hse]
            intro q hq
            rcases mem_mapSet hq with hq | hq
            · exact hcache q hq
            · rw [hq]
              intro m hm
              have hm2 : m ∈ mapValues streamed :=
                (List.dropLast_sublist _).subset hm
              rcases mem_mapValues.mp hm2 with ⟨r, hr, hr2⟩
              rw [← hr2]
              exact hstr r hr
          · rw [if_neg hse]
            exact hcache
        · rw [if_neg hth]
          exact hcache
      · rw [if_neg hl]
        exact hcache
  have hOD : ∀ m ∈ (orphansAndTurns (baseOf msgs (some om))).1,
      (m.id == some x) = false := by
    intro m hm
    cases hc : (m.id == some x) with
    | false => rfl
    | true =>
      exfalso
      have hmm : m ∈ msgs := by
        have h3 := orphans_subset _ m hm
        rw [hbase] at h3
        exact h3
      exact (orphansAndTurns_wf _).1 m hm (hhum m hmm (by simpa using hc))
  have hTD : ∀ t ∈ (orphansAndTurns (baseOf msgs (some om))).2,
      ∀ m ∈ t.2, (m.id == some x) = false := by
    intro t ht m hm
    cases hc : (m.id == some x) with
    | false => rfl
    | true =>
      exfalso
      have hmm : m ∈ msgs := by
        have h3 := (turns_subset _ t ht).2 m hm
        rw [hbase] at h3
        exact h3
      exact ((orphansAndTurns_wf _).2 t ht).2 m hm
        (hhum m hmm (by simpa using hc))
  have hSD : ∀ m ∈ mapValues streamed, (m.id == some x) = false := by
    intro m hm
    rcases mem_mapValues.mp hm with ⟨r, hr, hr2⟩
    rw [← hr2]
    exact hstr r hr
  have hbc : (baseOf msgs (some om)).countP (fun m => m.id == some x)
      = 1 := by
    rw [hbase, List.countP_eq_length_filter, hone]
  have h1 : (flattenTurns
        (orphansAndTurns (baseOf msgs (some om))).2).countP
        (fun m => m.id == some x)
      = ((orphansAndTurns (baseOf msgs (some om))).2.map
          (fun t => t.1)).countP (fun m => m.id == some x) :=
    countP_flattenTurns _ _ hTD
  have h2 : ((orphansAndTurns (baseOf msgs (some om))).2.map
      (fun t => t.1)).countP (fun m => m.id == some x) = 1 := by
    have h3 : ((orphansAndTurns (baseOf msgs (some om))).1 ++
        flattenTurns (orphansAndTurns (baseOf msgs (some om))).2).countP
        (fun m => m.id == some x) = 1 := by
      rw [orphansAndTurns_flatten]
      exact hbc
    rw [List.countP_append,
      countP_zero_of (fun m => m.id == some x) _ hOD, h1] at h3
    simpa using h3
  rw [reconcile_messages, ← List.countP_eq_length_filter,
    List.countP_append, countP_zero_of (fun m => m.id == some x) _ hOD,
    processTurns_countP x _ _ _ _ _ hgx hTD hSD, h2]

theorem optimistic_convergence_witness :
    ((reconcile [msgOpt] [] true [] (some msgOpt)).messages.filter
      (fun m => m.id == some "x")).length = 1 :=
  optimistic_convergence [msgOpt] [] [] true msgOpt "x" (by decide)
    (by decide) (by decide) (by decide) (by decide)

/- ------------------------------------------------------------------ -/
/- Helper lemmas for the active-turn visibility analysis.              -/
/- ------------------------------------------------------------------ -/

theorem map_dropLast_append_last {α β : Type} (l : List α) (f : α → β)
    (w : α) (hw : l.getLast? = some w) :
    l.dropLast.map f ++ [f w] = l.map f := by
  cases l with
  | nil => cases hw
  | cons y ys =>
    have hne : ¬(y :: ys = ([] : List α)) := by simp
    rw [List.getLast?_eq_getLast (y :: ys) hne] at hw
    injection hw with hw2
    rw [← hw2]
    conv_rhs => rw [← List.dropLast_append_getLast hne]
    rw [List.map_append]
    rfl

theorem processTurns_concat_fst (pv : List (Option String))
    (sv : List Message) (us : Bool) (ts : List (Message × List Message))
    (g : GroupsMap) (h : Message) (a : List Message) :
    (processTurns pv sv us g (ts ++ [(h, a)])).1 =
      (runTurns g ts).1 ++
        (finalizeTurn (runTurns g ts).2 h (activeAis pv sv us a)).1 := by
  rw [processTurns_concat]

theorem processTurns_concat_snd (pv : List (Option String))
    (sv : List Message) (us : Bool) (ts : List (Message × List Message))
    (g : GroupsMap) (h : Message) (a : List Message) :
    (processTurns pv sv us g (ts ++ [(h, a)])).2 =
      (finalizeTurn (runTurns g ts).2 h (activeAis pv sv us a)).2 := by
  rw [processTurns_concat]

theorem mergeById_ids_nodup (persisted ais : List Message) :
    ((mergeById persisted ais).map (fun m => m.id)).Nodup := by
  have hwfnil : AccumWF ([] : Accum) :=
    ⟨List.nodup_nil, by intro q hq; cases hq⟩
  have hwfM : AccumWF (ais.foldl (insertIf (fun m2 => idTruthy m2.id))
      (persisted.foldl (insertIf (fun m2 => idTruthy m2.id)) [])) :=
    AccumWF_foldl_insertIf _ (fun _ h2 => h2) ais _
      (AccumWF_foldl_insertIf _ (fun _ h2 => h2) persisted [] hwfnil)
  have h1 : (mergeById persisted ais).map (fun m => m.id)
      = (mapKeys (ais.foldl (insertIf (fun m2 => idTruthy m2.id))
        (persisted.foldl (insertIf (fun m2 => idTruthy m2.id)) []))).map some :=
    AccumWF_values_id _ hwfM
  rw [h1]
  exact hwfM.1.map (Option.some_injective String)

theorem foldl_insertIf_congr (p p2 : Message → Bool) (l : List Message) :
    ∀ acc : Accum, (∀ m ∈ l, p m = p2 m) →
    l.foldl (insertIf p) acc = l.foldl (insertIf p2) acc := by
  induction l with
  | nil => intro acc _; rfl
  | cons m t ih =>
    intro acc hag
    rw [List.foldl_cons, List.foldl_cons]
    have h1 : insertIf p acc m = insertIf p2 acc m := by
      unfold insertIf
      rw [hag m (by simp)]
    rw [h1]
    exact ih _ (fun m2 hm2 => hag m2 (by simp [hm2]))

theorem captureQualifies_truthy (m : Message)
    (h : captureQualifies m = true) : idTruthy m.id = true := by
  unfold captureQualifies at h
  cases ha : idTruthy m.id with
  | true => rfl
  | false => rw [ha] at h; simp at h

theorem recordAll_WF (l : List Message) (acc : Accum) (hacc : AccumWF acc) :
    AccumWF (recordAll acc l) :=
  AccumWF_foldl_insertIf captureQualifies captureQualifies_truthy l acc hacc

theorem recordAll_noHuman (l : List Message) (acc : Accum)
    (hacc : AccumNoHuman acc) : AccumNoHuman (recordAll acc l) := by
  intro q hq
  rcases mem_foldl_insertIf captureQualifies l acc q hq with h2 | ⟨_, h3, _⟩
  · exact hacc q h2
  · intro hcon
    unfold captureQualifies at h3
    rw [hcon] at h3
    simp at h3

theorem capture_WF (streamed : Accum) (msgs : List Message)
    (opt : Option Message) (il : Bool) (h : AccumWF streamed) :
    AccumWF (captureStreamedMessages streamed msgs opt il) := by
  cases il with
  | false => exact h
  | true =>
    cases opt with
    | none => exact recordAll_WF _ _ h
    | some om =>
      show AccumWF (if (!(lastHumanId msgs == om.id)) = true then streamed
        else recordAll streamed (afterLastHuman msgs))
      by_cases hg : (!(lastHumanId msgs == om.id)) = true
      · rw [if_pos hg]; exact h
      · rw [if_neg hg]; exact recordAll_WF _ _ h

theorem capture_noHuman (streamed : Accum) (msgs : List Message)
    (opt : Option Message) (il : Bool) (h : AccumNoHuman streamed) :
    AccumNoHuman (captureStreamedMessages streamed msgs opt il) := by
  cases il with
  | false => exact h
  | true =>
    cases opt with
    | none => exact recordAll_noHuman _ _ h
    | some om =>
      show AccumNoHuman (if (!(lastHumanId msgs == om.id)) = true then streamed
        else recordAll streamed (afterLastHuman msgs))
      by_cases hg : (!(lastHumanId msgs == om.id)) = true
      · rw [if_pos hg]; exact h
      · rw [if_neg hg]; exact recordAll_noHuman _ _ h

theorem capture_keys_extend (streamed : Accum) (msgs : List Message)
    (opt : Option Message) (il : Bool) :
    ∃ fr, mapKeys (captureStreamedMessages streamed msgs opt il) =
      mapKeys streamed ++ fr := by
  cases il with
  | false => exact ⟨[], (List.append_nil _).symm⟩
  | true =>
    cases opt with
    | none => exact mapKeys_foldl_insertIf captureQualifies _ streamed
    | some om =>
      show ∃ fr,
        mapKeys (if (!(lastHumanId msgs == om.id)) = true then streamed
          else recordAll streamed (afterLastHuman msgs))
          = mapKeys streamed ++ fr
      by_cases hg : (!(lastHumanId msgs == om.id)) = true
      · rw [if_pos hg]; exact ⟨[], (List.append_nil _).symm⟩
      · rw [if_neg hg]
        exact mapKeys_foldl_insertIf captureQualifies _ streamed

theorem capture_pass (streamed : Accum) (msgs : List Message)
    (opt : Option Message)
    (hguard : ∀ om, opt = some om → (lastHumanId msgs == om.id) = true) :
    captureStreamedMessages streamed msgs opt true =
      recordAll streamed (afterLastHuman msgs) := by
  cases opt with
  | none => rfl
  | some om =>
    show (if (!(lastHumanId msgs == om.id)) = true then streamed
      else recordAll streamed (afterLastHuman msgs))
      = recordAll streamed (afterLastHuman msgs)
    rw [hguard om rfl]
    rfl

theorem capture_blocked (streamed : Accum) (msgs : List Message)
    (om : Message) (hg : (lastHumanId msgs == om.id) = false) :
    captureStreamedMessages streamed msgs (some om) true = streamed := by
  show (if (!(lastHumanId msgs == om.id)) = true then streamed
    else recordAll streamed (afterLastHuman msgs)) = streamed
  rw [hg]
  rfl

theorem mergeById_nil_length (a2 : List Message)
    (hnh2 : ∀ m ∈ a2, ¬(m.type = MsgType.human)) :
    (mergeById [] a2).length = (recordAll [] a2).length := by
  have hag : ∀ m ∈ a2, (fun m2 => idTruthy m2.id) m = captureQualifies m := by
    intro m hm
    show idTruthy m.id = captureQualifies m
    unfold captureQualifies
    rw [nonhuman_ai_or_tool m (hnh2 m hm)]
    rw [Bool.and_true]
  unfold mergeById recordAll
  rw [mergeInsert_eq]
  rw [List.foldl_nil]
  rw [foldl_insertIf_congr (fun m2 => idTruthy m2.id) captureQualifies a2 [] hag]
  exact length_mapValues _

theorem baseOf_clear (msgs : List Message) (opt : Option Message) :
    baseOf msgs (clearOptimisticMessage opt msgs false) = baseOf msgs opt := by
  cases opt with
  | none => rfl
  | some om =>
    cases hany : msgs.any (fun m => m.id == om.id) with
    | true => simp [clearOptimisticMessage, baseOf, hany]
    | false => simp [clearOptimisticMessage, baseOf, hany]

theorem capture_base_cases (msgs : List Message) (opt : Option Message)
    (b : List Message) (h : Message) (a : List Message)
    (hsplit : splitAtLastHuman (baseOf msgs opt) = some (b, h, a))
    (hguard : ∀ om, opt = some om → (lastHumanId msgs == om.id) = true) :
    baseOf msgs opt = msgs ∨ a = [] := by
  cases opt with
  | none =>
    left
    show msgs ++ [] = msgs
    exact List.append_nil msgs
  | some om =>
    by_cases hany : msgs.any (fun m => m.id == om.id) = true
    · left
      show msgs ++
        (if msgs.any (fun m => m.id == om.id) = true then [] else [om]) = msgs
      rw [if_pos hany, List.append_nil]
    · have hany2 : msgs.any (fun m => m.id == om.id) = false := by
        cases hc : msgs.any (fun m => m.id == om.id) with
        | true => exact absurd hc hany
        | false => rfl
      have hbase : baseOf msgs (some om) = msgs ++ [om] := by
        show msgs ++
          (if msgs.any (fun m => m.id == om.id) = true then [] else [om])
          = msgs ++ [om]
        rw [if_neg hany]
      have hg := hguard om rfl
      cases hsm : splitAtLastHuman msgs with
      | some p =>
        obtain ⟨bm, hm, am⟩ := p
        exfalso
        have hmem : hm ∈ msgs := by
          rw [(splitAtLastHuman_spec msgs bm hm am hsm).1]
          exact List.mem_append.mpr (Or.inr (by simp))
        have hlh : lastHumanId msgs = hm.id := by
          unfold lastHumanId
          rw [hsm]
        rw [hlh] at hg
        exact hany (List.any_eq_true.mpr ⟨hm, hmem, hg⟩)
      | none =>
        have hnhm : ∀ m ∈ msgs, ¬(m.type = MsgType.human) :=
          splitAtLastHuman_none msgs hsm
        by_cases hom : om.type = MsgType.human
        · right
          by_contra hane
          obtain ⟨h1, _, h3⟩ :=
            splitAtLastHuman_spec (baseOf msgs (some om)) b h a hsplit
          have hlastb : (baseOf msgs (some om)).getLast? = some om := by
            rw [hbase]
            rw [List.getLast?_append_of_ne_nil msgs (by simp)]
            simp
          have hlasta : (baseOf msgs (some om)).getLast? = a.getLast? := by
            rw [h1]
            rw [List.getLast?_append_of_ne_nil b (by simp)]
            cases a with
            | nil => exact absurd rfl hane
            | cons y ys => rw [List.getLast?_cons_cons]
          have hom2 : a.getLast? = some om := by
            rw [← hlasta, hlastb]
          exact (h3 om (getLast?_mem_list hom2)) hom
        · exfalso
          have hnone : splitAtLastHuman (baseOf msgs (some om)) = none := by
            apply splitAtLastHuman_none_of
            intro m hm
            rw [hbase] at hm
            rcases List.mem_append.mp hm with hm2 | hm2
            · exact hnhm m hm2
            · have hme : m = om := by simpa using hm2
              rw [hme]
              exact hom
          rw [hnone] at hsplit
          cases hsplit

theorem visibleCount_empty (msgs : List Message) (cache : GroupsMap)
    (opt : Option Message) (il : Bool) (b : List Message) (h : Message)
    (a : List Message)
    (hsplit : splitAtLastHuman (baseOf msgs opt) = some (b, h, a))
    (hcache : mapGet cache h.id = none)
    (hdup : ∀ m ∈ b, m.type = MsgType.human → (m.id == h.id) = false) :
    visibleCount (reconcile msgs [] il cache opt) h.id
      = (mergeById [] a).length := by
  obtain ⟨ts0, hts0, hheads⟩ :=
    orphansAndTurns_split (baseOf msgs opt) b h a hsplit
  have hhne : ∀ t ∈ ts0, (t.1.id == h.id) = false := fun t ht =>
    hdup t.1 (hheads t ht).1 (hheads t ht).2
  have hg2 : mapGet
      (runTurns (presetGroups cache (baseOf msgs opt) [] il) ts0).2 h.id
      = none := by
    rw [runTurns_mapGet h.id ts0 _ hhne,
      presetGroups_empty cache (baseOf msgs opt) il]
    exact hcache
  have hact : activeAis
      ((beforeLastHuman (baseOf msgs opt)).map (fun m => m.id))
      (mapValues ([] : Accum)) (!([] : Accum).isEmpty) a = a := rfl
  have hr2 : (reconcile msgs [] il cache opt).intermediateGroups
      = (finalizeTurn
          (runTurns (presetGroups cache (baseOf msgs opt) [] il) ts0).2 h
          a).2 := by
    rw [reconcile_groups, hts0, processTurns_concat_snd, hact]
  have hr1 : (reconcile msgs [] il cache opt).messages
      = (orphansAndTurns (baseOf msgs opt)).1 ++
        ((runTurns (presetGroups cache (baseOf msgs opt) [] il) ts0).1 ++
          (finalizeTurn
            (runTurns (presetGroups cache (baseOf msgs opt) [] il) ts0).2 h
            a).1) := by
    rw [reconcile_messages, hts0, processTurns_concat_fst, hact]
  have hper : (mapGet
      (runTurns (presetGroups cache (baseOf msgs opt) [] il) ts0).2
      h.id).getD [] = [] := by
    rw [hg2]
    rfl
  have hfin : finalizeTurn
      (runTurns (presetGroups cache (baseOf msgs opt) [] il) ts0).2 h a =
      match (mergeById [] a).getLast? with
      | some f => ([h, f], mapSet
          (runTurns (presetGroups cache (baseOf msgs opt) [] il) ts0).2 h.id
          (mergeById [] a).dropLast)
      | none => ([h],
          (runTurns (presetGroups cache (baseOf msgs opt) [] il) ts0).2) := by
    rw [finalizeTurn_eq, hper]
  cases hml : (mergeById [] a).getLast? with
  | none =>
    have hml2 : mergeById [] a = [] := by
      cases hme : mergeById [] a with
      | nil => rfl
      | cons y ys =>
        rw [hme, List.getLast?_eq_getLast (y :: ys) (by simp)] at hml
        cases hml
    rw [hml] at hfin
    have hfin1 : (finalizeTurn
        (runTurns (presetGroups cache (baseOf msgs opt) [] il) ts0).2 h a).1
        = [h] := by
      rw [hfin]
    have hfin2 : (finalizeTurn
        (runTurns (presetGroups cache (baseOf msgs opt) [] il) ts0).2 h a).2
        = (runTurns (presetGroups cache (baseOf msgs opt) [] il) ts0).2 := by
      rw [hfin]
    have hgroups : mapGet
        (reconcile msgs [] il cache opt).intermediateGroups h.id = none := by
      rw [hr2, hfin2]
      exact hg2
    have hlast : (reconcile msgs [] il cache opt).messages.getLast?
        = some h := by
      rw [hr1, hfin1]
      rw [List.getLast?_append_of_ne_nil _ (by simp)]
      rw [List.getLast?_append_of_ne_nil _ (by simp)]
      simp
    unfold visibleCount visibleIds
    rw [hgroups, hlast]
    show (([] : List (Option String)) ++
      (if h.type = MsgType.human then [] else [h.id])).dedup.length
      = (mergeById [] a).length
    rw [if_pos (splitAtLastHuman_spec (baseOf msgs opt) b h a hsplit).2.1,
      hml2]
    rfl
  | some f =>
    have hfin1 : (finalizeTurn
        (runTurns (presetGroups cache (baseOf msgs opt) [] il) ts0).2 h a).1
        = [h, f] := by
      rw [hfin, hml]
    have hfin2 : (finalizeTurn
        (runTurns (presetGroups cache (baseOf msgs opt) [] il) ts0).2 h a).2
        = mapSet (runTurns (presetGroups cache (baseOf msgs opt) [] il) ts0).2
            h.id (mergeById [] a).dropLast := by
      rw [hfin, hml]
    have hgroups : mapGet
        (reconcile msgs [] il cache opt).intermediateGroups h.id
        = some ((mergeById [] a).dropLast) := by
      rw [hr2, hfin2]
      exact mapGet_set_self _ h.id _
    have hlast : (reconcile msgs [] il cache opt).messages.getLast?
        = some f := by
      rw [hr1, hfin1]
      rw [List.getLast?_append_of_ne_nil _ (by simp)]
      rw [List.getLast?_append_of_ne_nil _ (by simp)]
      simp
    have hfa : f ∈ a := by
      rcases mergeById_mem [] a f (getLast?_mem_list hml) with h2 | h2
      · cases h2
      · exact h2
    have hfnh : ¬(f.type = MsgType.human) :=
      (splitAtLastHuman_spec (baseOf msgs opt) b h a hsplit).2.2 f hfa
    unfold visibleCount visibleIds
    rw [hgroups, hlast]
    show (((mergeById [] a).dropLast.map (fun m => m.id)) ++
      (if f.type = MsgType.human then [] else [f.id])).dedup.length
      = (mergeById [] a).length
    rw [if_neg hfnh]
    rw [map_dropLast_append_last (mergeById [] a) (fun m => m.id) f hml]
    rw [List.dedup_eq_self.mpr (mergeById_ids_nodup [] a)]
    exact List.length_map _ _

theorem visibleCount_streamed (msgs : List Message) (S : Accum)
    (cache : GroupsMap) (opt : Option Message) (il : Bool)
    (b : List Message) (h : Message) (a : List Message)
    (hsplit : splitAtLastHuman (baseOf msgs opt) = some (b, h, a))
    (hS : ¬(S = [])) (hwf : AccumWF S) (hnh : AccumNoHuman S)
    (hid : idTruthy h.id = true)
    (hdup : ∀ m ∈ b, m.type = MsgType.human → (m.id == h.id) = false)
    (hnocol : ∀ k ∈ mapKeys S,
      ((b.map (fun m => m.id)).contains (some k)) = false) :
    visibleCount (reconcile msgs S il cache opt) h.id = S.length := by
  have hie : S.isEmpty = false := by
    cases S with
    | nil => exact absurd rfl hS
    | cons q qs => rfl
  obtain ⟨ts0, hts0, hheads⟩ :=
    orphansAndTurns_split (baseOf msgs opt) b h a hsplit
  have hhne : ∀ t ∈ ts0, (t.1.id == h.id) = false := fun t ht =>
    hdup t.1 (hheads t ht).1 (hheads t ht).2
  have hbl : beforeLastHuman (baseOf msgs opt) = b := by
    unfold beforeLastHuman
    rw [hsplit]
  have hpre : presetGroups cache (baseOf msgs opt) S il
      = mapSet cache h.id ((mapValues S).dropLast) := by
    unfold presetGroups
    rw [hsplit]
    show (if (il || !S.isEmpty) = true then
        if idTruthy h.id = true then
          if (!S.isEmpty) = true then
            mapSet cache h.id ((mapValues S).dropLast)
          else cache
        else cache
      else cache) = mapSet cache h.id ((mapValues S).dropLast)
    rw [hie, hid]
    simp
  have hg2 : mapGet
      (runTurns (presetGroups cache (baseOf msgs opt) S il) ts0).2 h.id
      = some ((mapValues S).dropLast) := by
    rw [runTurns_mapGet h.id ts0 _ hhne, hpre]
    exact mapGet_set_self cache h.id _
  have hact : activeAis
      ((beforeLastHuman (baseOf msgs opt)).map (fun m => m.id))
      (mapValues S) (!S.isEmpty) a = mapValues S := by
    rw [hie]
    show (mapValues S).filter (fun m =>
      !(((beforeLastHuman (baseOf msgs opt)).map (fun m2 => m2.id)).contains
        m.id)) = mapValues S
    apply List.filter_eq_self.mpr
    intro m hm
    show (!(((beforeLastHuman (baseOf msgs opt)).map
      (fun m2 => m2.id)).contains m.id)) = true
    rcases mem_mapValues.mp hm with ⟨q, hq, hq2⟩
    have hqid : m.id = some q.1 := by
      rw [← hq2]
      exact (hwf.2 q hq).1
    have h3 := hnocol q.1 (List.mem_map.mpr ⟨q, hq, rfl⟩)
    rw [hbl, hqid, h3]
    rfl
  have hr2 : (reconcile msgs S il cache opt).intermediateGroups
      = (finalizeTurn
          (runTurns (presetGroups cache (baseOf msgs opt) S il) ts0).2 h
          (mapValues S)).2 := by
    rw [reconcile_groups, hts0, processTurns_concat_snd, hact]
  have hr1 : (reconcile msgs S il cache opt).messages
      = (orphansAndTurns (baseOf msgs opt)).1 ++
        ((runTurns (presetGroups cache (baseOf msgs opt) S il) ts0).1 ++
          (finalizeTurn
            (runTurns (presetGroups cache (baseOf msgs opt) S il) ts0).2 h
            (mapValues S)).1) := by
    rw [reconcile_messages, hts0, processTurns_concat_fst, hact]
  have hper : (mapGet
      (runTurns (presetGroups cache (baseOf msgs opt) S il) ts0).2
      h.id).getD [] = (mapValues S).dropLast := by
    rw [hg2]
    rfl
  have hmer : mergeById ((mapGet
      (runTurns (presetGroups cache (baseOf msgs opt) S il) ts0).2
      h.id).getD []) (mapValues S) = mapValues S := by
    rw [hper]
    exact mergeById_rebuild S hwf
  obtain ⟨w, hw⟩ : ∃ w, (mapValues S).getLast? = some w := by
    cases S with
    | nil => exact absurd rfl hS
    | cons q qs =>
      exact ⟨(mapValues (q :: qs)).getLast (by simp [mapValues]),
        List.getLast?_eq_getLast _ (by simp [mapValues])⟩
  have hfin1 : (finalizeTurn
      (runTurns (presetGroups cache (baseOf msgs opt) S il) ts0).2 h
      (mapValues S)).1 = [h, w] := by
    rw [finalizeTurn_eq, hmer, hw]
  have hfin2 : (finalizeTurn
      (runTurns (presetGroups cache (baseOf msgs opt) S il) ts0).2 h
      (mapValues S)).2
      = mapSet (runTurns (presetGroups cache (baseOf msgs opt) S il) ts0).2
          h.id ((mapValues S).dropLast) := by
    rw [finalizeTurn_eq, hmer, hw]
  have hgroups : mapGet
      (reconcile msgs S il cache opt).intermediateGroups h.id
      = some ((mapValues S).dropLast) := by
    rw [hr2, hfin2]
    exact mapGet_set_self _ h.id _
  have hlast : (reconcile msgs S il cache opt).messages.getLast?
      = some w := by
    rw [hr1, hfin1]
    rw [List.getLast?_append_of_ne_nil _ (by simp)]
    rw [List.getLast?_append_of_ne_nil _ (by simp)]
    simp
  have hwnh : ¬(w.type = MsgType.human) := by
    rcases mem_mapValues.mp (getLast?_mem_list hw) with ⟨q, hq, hq2⟩
    rw [← hq2]
    exact hnh q hq
  unfold visibleCount visibleIds
  rw [hgroups, hlast]
  show (((mapValues S).dropLast.map (fun m => m.id)) ++
    (if w.type = MsgType.human then [] else [w.id])).dedup.length = S.length
  rw [if_neg hwnh]
  rw [map_dropLast_append_last (mapValues S) (fun m => m.id) w hw]
  rw [AccumWF_values_id S hwf]
  rw [List.dedup_eq_self.mpr (hwf.1.map (Option.some_injective String))]
  rw [List.length_map]
  exact List.length_map S (fun p => p.1)

/-- C1 counterexample: the number of distinct message ids the reconciler
attributes to the active turn is NOT monotonically non-decreasing across an
effect pass, even while streaming stays active, no error is present, and the
active turn (the store's most recent human message) is unchanged.  With a
persisted two-step group cached for the human message and a regenerated
answer streaming, the pass records the single live answer into the
accumulator, whereupon the reconciler's pre-set block overwrites the cached
group with the accumulator contents minus the last element: visibility drops
from 3 distinct ids to 1. -/
theorem monotonic_visibility_counterexample :
    (⟨[msgH, msgG], true, false⟩ : Notif).isLoading = true
    ∧ (⟨[msgH, msgG], true, false⟩ : Notif).errorPresent = false
    ∧ splitAtLastHuman (baseOf [msgH, msgG] none) = some ([], msgH, [msgG])
    ∧ splitAtLastHuman (baseOf [msgH, msgG]
        (effectStep ⟨[], [(some "h", [msgA, msgB])], none⟩
          ⟨[msgH, msgG], true, false⟩).optimistic)
        = some ([], msgH, [msgG])
    ∧ visibleCount (reconcileState
        (effectStep ⟨[], [(some "h", [msgA, msgB])], none⟩
          ⟨[msgH, msgG], true, false⟩)
        ⟨[msgH, msgG], true, false⟩) msgH.id
      < visibleCount (reconcileState ⟨[], [(some "h", [msgA, msgB])], none⟩
          ⟨[msgH, msgG], true, false⟩) msgH.id := by decide

/-- C1 (amended): during active streaming, the count of distinct message ids
attributed to the active turn is non-decreasing from one Message Store
notification to the next across the intervening effect pass — in particular
even when the next notification's sequence drops a previously shown
assistant/tool message, since the capture effect has recorded it in the
accumulator — PROVIDED the persistence cache holds no entry for the active
human message (no regeneration of an already-persisted turn), no optimistic
placeholder is pending whose id differs from the store's last human message
(that guard would block capture entirely), the accumulator is well-formed,
human-free, and free of id collisions with the pre-active part of either
base sequence, the active human message is unchanged, and no earlier human
message shares its id. -/
theorem monotonic_visibility (s : CoreState) (n1 n2 : Notif)
    (b : List Message) (h : Message) (a : List Message)
    (b2 : List Message) (a2 : List Message)
    (hload : n1.isLoading = true)
    (hsplit : splitAtLastHuman (baseOf n1.messages s.optimistic)
      = some (b, h, a))
    (hsplit2 : splitAtLastHuman
      (baseOf n2.messages (effectStep s n1).optimistic) = some (b2, h, a2))
    (hid : idTruthy h.id = true)
    (hcache : mapGet s.cache h.id = none)
    (hwf : AccumWF s.streamed)
    (hnh : AccumNoHuman s.streamed)
    (hguard : ∀ om, s.optimistic = some om →
      (lastHumanId n1.messages == om.id) = true)
    (hdup : ∀ m ∈ b, m.type = MsgType.human → (m.id == h.id) = false)
    (hdup2 : ∀ m ∈ b2, m.type = MsgType.human → (m.id == h.id) = false)
    (hnocol : ∀ k ∈ mapKeys s.streamed,
      ((b.map (fun m => m.id)).contains (some k)) = false)
    (hnocol2 : ∀ k ∈ mapKeys (effectStep s n1).streamed,
      ((b2.map (fun m => m.id)).contains (some k)) = false) :
    visibleCount (reconcileState s n1) h.id
      ≤ visibleCount (reconcileState (effectStep s n1) n2) h.id := by
  obtain ⟨S, cache, opt⟩ := s
  obtain ⟨msgs, il, ep⟩ := n1
  obtain ⟨msgs2, il2, ep2⟩ := n2
  have hil : il = true := hload
  subst hil
  have hnocol2b : ∀ k ∈ mapKeys (captureStreamedMessages S msgs opt true),
      ((b2.map (fun m => m.id)).contains (some k)) = false := hnocol2
  have hrs0 : reconcileState ⟨S, cache, opt⟩ ⟨msgs, true, ep⟩
      = reconcile msgs S true cache opt := rfl
  have hrs : reconcileState (effectStep ⟨S, cache, opt⟩ ⟨msgs, true, ep⟩)
      ⟨msgs2, il2, ep2⟩
      = reconcile msgs2 (captureStreamedMessages S msgs opt true) il2 cache
          (clearOptimisticMessage opt msgs ep) := rfl
  rw [hrs0, hrs]
  have hsplit0 : splitAtLastHuman (baseOf msgs opt) = some (b, h, a) :=
    hsplit
  have hsplit2b : splitAtLastHuman
      (baseOf msgs2 (clearOptimisticMessage opt msgs ep))
      = some (b2, h, a2) := hsplit2
  have hguard0 : ∀ om, opt = some om →
      (lastHumanId msgs == om.id) = true := hguard
  by_cases hSe : S = []
  · subst hSe
    have hcap : captureStreamedMessages [] msgs opt true
        = recordAll [] (afterLastHuman msgs) :=
      capture_pass [] msgs opt hguard0
    rcases capture_base_cases msgs opt b h a hsplit0 hguard0 with hA | hB
    · have hsplitm : splitAtLastHuman msgs = some (b, h, a) := by
        rw [← hA]
        exact hsplit0
      have hafterm : afterLastHuman msgs = a := by
        unfold afterLastHuman
        rw [hsplitm]
      have hanh : ∀ m ∈ a, ¬(m.type = MsgType.human) :=
        (splitAtLastHuman_spec (baseOf msgs opt) b h a hsplit0).2.2
      rw [visibleCount_empty msgs cache opt true b h a hsplit0 hcache hdup]
      by_cases hS2 : captureStreamedMessages [] msgs opt true = []
      · rw [hS2]
        rw [visibleCount_empty msgs2 cache
          (clearOptimisticMessage opt msgs ep) il2 b2 h a2 hsplit2b hcache
          hdup2]
        have hra : recordAll [] a = [] := by
          rw [← hafterm, ← hcap]
          exact hS2
        rw [mergeById_nil_length a hanh, hra]
        exact Nat.zero_le _
      · have hwf2 : AccumWF (captureStreamedMessages [] msgs opt true) := by
          rw [hcap]
          exact recordAll_WF _ [] ⟨List.nodup_nil, by intro q hq; cases hq⟩
        have hnh2 : AccumNoHuman
            (captureStreamedMessages [] msgs opt true) := by
          rw [hcap]
          exact recordAll_noHuman _ [] (by intro q hq; cases hq)
        rw [visibleCount_streamed msgs2
          (captureStreamedMessages [] msgs opt true) cache
          (clearOptimisticMessage opt msgs ep) il2 b2 h a2 hsplit2b hS2
          hwf2 hnh2 hid hdup2 hnocol2b]
        rw [hcap, hafterm, mergeById_nil_length a hanh]
    · subst hB
      rw [visibleCount_empty msgs cache opt true b h [] hsplit0 hcache hdup]
      exact Nat.zero_le _
  · obtain ⟨fr, hfr⟩ := capture_keys_extend S msgs opt true
    have hS2 : ¬(captureStreamedMessages S msgs opt true = []) := by
      intro hc
      apply hSe
      have hlen : (mapKeys (captureStreamedMessages S msgs opt true)).length
          = (mapKeys S).length + fr.length := by
        rw [hfr, List.length_append]
      rw [hc] at hlen
      have h00 : (0 : Nat) = (mapKeys S).length + fr.length := hlen
      have h0 : (mapKeys S).length = 0 := by omega
      cases S with
      | nil => rfl
      | cons q qs => simp [mapKeys] at h0
    have hle : S.length
        ≤ (captureStreamedMessages S msgs opt true).length := by
      have h1 : (mapKeys (captureStreamedMessages S msgs opt true)).length
          = (mapKeys S).length + fr.length := by
        rw [hfr, List.length_append]
      have h2 : (mapKeys (captureStreamedMessages S msgs opt true)).length
          = (captureStreamedMessages S msgs opt true).length :=
        List.length_map _ _
      have h3 : (mapKeys S).length = S.length := List.length_map _ _
      omega
    rw [visibleCount_streamed msgs S cache opt true b h a hsplit0 hSe hwf hnh
      hid hdup hnocol]
    rw [visibleCount_streamed msgs2 (captureStreamedMessages S msgs opt true)
      cache (clearOptimisticMessage opt msgs ep) il2 b2 h a2 hsplit2b hS2
      (capture_WF S msgs opt true hwf) (capture_noHuman S msgs opt true hnh)
      hid hdup2 hnocol2b]
    exact hle

theorem monotonic_visibility_witness :
    visibleCount (reconcileState ⟨[], [], none⟩
        ⟨[msgH, msgA1], true, false⟩) msgH.id
      ≤ visibleCount (reconcileState
          (effectStep ⟨[], [], none⟩ ⟨[msgH, msgA1], true, false⟩)
          ⟨[msgH], true, false⟩) msgH.id :=
  monotonic_visibility ⟨[], [], none⟩ ⟨[msgH, msgA1], true, false⟩
    ⟨[msgH], true, false⟩ [] msgH [msgA1] [] [] (by decide) (by decide)
    (by decide) (by decide) (by decide) (by decide) (by decide) (by decide)
    (by decide) (by decide) (by decide) (by decide)
